import Mathlib

/-!
Verification of gEconpy core routines against their specification.

The development shallowly embeds the relevant Python source files:
  * `gEconpy/estimation/estimation_utilities.py` (CSR matrix reconstruction,
    generalized-eigenvalue post-processing, Blanchard-Kahn check),
  * `gEconpy/classes/containers.py` (`SymbolDictionary` and its operations),
  * the distribution-string validation exercised by
    `tests/test_distribution_parser.py`.

Machine floats are modelled by rational numbers, complex Schur diagonal
entries by pairs of rationals, and the LAPACK `ordqz` call by an explicit
oracle argument (it is an external binary routine, exactly like the
external steady-state solver of the spec).  Mutable Python state
(the aliased `_assumptions` side tables of `SymbolDictionary`) is modelled
by explicit store passing.
-/

namespace GEconpy

/-! ## CSR reconstruction (`estimation_utilities.py`, lines 122-206)

`matrix_from_csr_data(data, indices, idxptrs, shape)` initializes
`out = np.zeros(shape)` and, for each row `i < shape[0]`, walks the slots
`d` in `[idxptrs[i], idxptrs[i+1])` writing `out[i, indices[d]] = data[d]`.
We embed the dense result cell-wise: the value of cell `(i, j)` is the
result of folding the row-`i` writes in program order over the initial
value `0` (a later write to the same cell overwrites an earlier one,
exactly as in the imperative loop). -/

/-- The list of data slots `[idxptrs[i], idxptrs[i+1])` visited for row `i`
(`start = idxptrs[i]`, `end = idxptrs[i+1]` in the source). -/
def rowSlots (idxptrs : List ℕ) (i : ℕ) : List ℕ :=
  List.range' (idxptrs.getD i 0) (idxptrs.getD (i + 1) 0 - idxptrs.getD i 0)

/-- Shallow embedding of `matrix_from_csr_data` from
`estimation_utilities.py` lines 122-154, as the function giving the final
value of cell `(i, j)` of the dense array `out`. -/
def matrix_from_csr_data (data : List ℚ) (indices idxptrs : List ℕ)
    (shape : ℕ × ℕ) (i j : ℕ) : ℚ :=
  if i < shape.1 ∧ j < shape.2 then
    (rowSlots idxptrs i).foldl
      (fun acc d => if indices.getD d 0 = j then data.getD d 0 else acc) 0
  else 0

/-- Shallow embedding of `build_system_matrices` from
`estimation_utilities.py` lines 157-206 (default `vars_to_estimate=None`
path): each closure is evaluated at the free-parameter assignment and the
resulting data vector is densified with `matrix_from_csr_data`. -/
def build_system_matrices (params : String → ℚ)
    (sparse_datas : List (List ((String → ℚ) → ℚ) × List ℕ × List ℕ × (ℕ × ℕ))) :
    List (ℕ → ℕ → ℚ) :=
  sparse_datas.map fun sd =>
    matrix_from_csr_data (sd.1.map fun f => f params) sd.2.1 sd.2.2.1 sd.2.2.2

/-- Shape invariants of the CSR triples produced by
`extract_sparse_data_from_model` (lines 47-118): `pointers` starts at `0`,
has one boundary per row plus one, is monotone, ends at the number of
stored entries, all column indices are in range, and the column indices of
each row are strictly increasing (the compiler appends them while scanning
`enumerate(row)` in ascending column order). -/
structure CSRWellFormed (indices idxptrs : List ℕ) (shape : ℕ × ℕ) : Prop where
  ptr_len : idxptrs.length = shape.1 + 1
  ptr_first : idxptrs.getD 0 0 = 0
  ptr_mono : ∀ i, i < shape.1 → idxptrs.getD i 0 ≤ idxptrs.getD (i + 1) 0
  ptr_last : idxptrs.getD shape.1 0 = indices.length
  cols_lt : ∀ c ∈ indices, c < shape.2
  row_strict : ∀ i, i < shape.1 → ∀ p q, idxptrs.getD i 0 ≤ p → p < q →
    q < idxptrs.getD (i + 1) 0 → indices.getD p 0 < indices.getD q 0

/-! ## Stability checker (`estimation_utilities.py`, lines 209-307)

`compute_eigenvalues` builds the augmented pencil from dense `A`, `B`, `C`,
calls `scipy.linalg.ordqz(-Gamma_0, Gamma_1, sort="ouc", output="complex")`
and post-processes the two complex Schur diagonals.  The LAPACK call is an
external binary routine; we model it as an explicit oracle argument
returning either the list of diagonal pairs `(AA[i,i], BB[i,i])` or an
error.  Complex entries are pairs of rationals.  Everywhere the source
compares a modulus with a nonnegative bound (`> 0`, `> 1`) or sorts by
modulus, the embedding uses the squared modulus, which is exactly
computable over `ℚ` and order-equivalent on nonnegative reals. -/

/-- A complex number with rational real and imaginary part, modelling the
`complex128` entries of the Schur output. -/
structure RC where
  re : ℚ
  im : ℚ
deriving DecidableEq

/-- `z + q` for real rational `q` (the source's `gev[:, 0] + tol`). -/
def RC.addQ (z : RC) (q : ℚ) : RC := ⟨z.re + q, z.im⟩

/-- Complex division `z / w` (total: division by `0` yields `0`, the usual
Lean convention; the counterexamples and witnesses below avoid that
corner, where IEEE arithmetic would produce infinities instead). -/
def RC.div (z w : RC) : RC :=
  ⟨(z.re * w.re + z.im * w.im) / (w.re * w.re + w.im * w.im),
   (z.im * w.re - z.re * w.im) / (w.re * w.re + w.im * w.im)⟩

/-- Squared modulus `|z|^2`. -/
def RC.modSq (z : RC) : ℚ := z.re * z.re + z.im * z.im

/-- Dense rational matrix as list of rows; entry lookup defaulting to `0`. -/
def matGet (M : List (List ℚ)) (i j : ℕ) : ℚ := (M.getD i []).getD j 0

/-- Number of columns (length of the first row), `M.shape[1]`. -/
def ncols (M : List (List ℚ)) : ℕ := (M.getD 0 []).length

/-- `np.sum(np.abs(M), axis=0)[j]`: absolute column sum. -/
def colAbsSum (M : List (List ℚ)) (j : ℕ) : ℚ := (M.map fun row => |row.getD j 0|).sum

/-- `M.sum(axis=0)[j]`: signed column sum. -/
def colSum (M : List (List ℚ)) (j : ℕ) : ℚ := (M.map fun row => row.getD j 0).sum

/-- `lead_var_idx = np.where(np.sum(np.abs(C), axis=0) > tol)[0]`
(line 235): the forward-looking columns used for the pencil. -/
def lead_var_idx (C : List (List ℚ)) (tol : ℚ) : List ℕ :=
  (List.range (ncols C)).filter fun j => tol < colAbsSum C j

/-- `eqs_and_leads_idx = np.hstack((np.arange(n_vars), lead_var_idx + n_vars))`
(line 237), with `n_vars = A.shape[1]`. -/
def eqs_and_leads_idx (A C : List (List ℚ)) (tol : ℚ) : List ℕ :=
  List.range (ncols A) ++ (lead_var_idx C tol).map (· + ncols A)

/-- Entry `(i, j)` of `Gamma_0 = [[B, C], [-I, 0]]` (line 239); the block
row/column split uses `n_eq = A.shape[0]` and the horizontal offset of `C`
is `B.shape[1]`, exactly as `np.hstack`/`np.vstack` lay the blocks out. -/
def Gamma_0 (A B C : List (List ℚ)) (i j : ℕ) : ℚ :=
  if i < A.length then
    if j < ncols B then matGet B i j else matGet C i (j - ncols B)
  else
    if j < A.length then (if i - A.length = j then -1 else 0) else 0

/-- Entry `(i, j)` of `Gamma_1 = [[A, 0], [0, I]]` (lines 241-246). -/
def Gamma_1 (A : List (List ℚ)) (i j : ℕ) : ℚ :=
  if i < A.length then
    if j < ncols A then matGet A i j else 0
  else
    if j < A.length then 0 else if i - A.length = j - A.length then 1 else 0

/-- The two square matrices handed to `ordqz` (lines 247-250): both
`Gamma` matrices restricted to `eqs_and_leads_idx` rows and columns, the
first one negated (`ordqz(-Gamma_0, Gamma_1, ...)`). -/
def restrictedPencil (A B C : List (List ℚ)) (tol : ℚ) :
    List (List ℚ) × List (List ℚ) :=
  let idxs := eqs_and_leads_idx A C tol
  (idxs.map fun r => idxs.map fun c => -Gamma_0 A B C r c,
   idxs.map fun r => idxs.map fun c => Gamma_1 A r c)

/-- One generalized eigenvalue `gev[:, 1] / (gev[:, 0] + tol)` (line 254):
the ratio of the two diagonal Schur factors, with `tol` added to the
denominator before dividing. -/
def geneig (p : RC × RC) (tol : ℚ) : RC := RC.div p.2 (RC.addQ p.1 tol)

/-- Post-processing of the Schur diagonals (lines 252-263): form the
ratios, keep those with `|eigenval| > 0`, store each as the record
`(modulus, real, imaginary)` — here with the squared modulus in the first
slot — and sort ascending by modulus (`np.argsort(eig[:, 0])`; insertion
sort is stable, like `np.argsort`'s default). -/
def compute_eigenvalues_post (gev : List (RC × RC)) (tol : ℚ) :
    List (ℚ × ℚ × ℚ) :=
  let eigenval := gev.map fun p => geneig p tol
  let kept := eigenval.filter fun z => 0 < RC.modSq z
  List.insertionSort (fun x y => x.1 ≤ y.1)
    (kept.map fun z => (RC.modSq z, z.re, z.im))

/-- Shallow embedding of `compute_eigenvalues` (lines 209-263), with the
`ordqz` call abstracted into the oracle argument; a decomposition failure
propagates as an exception (`Except.error`). -/
def compute_eigenvalues
    (ordqz : List (List ℚ) → List (List ℚ) → Except Unit (List (RC × RC)))
    (A B C : List (List ℚ)) (tol : ℚ) : Except Unit (List (ℚ × ℚ × ℚ)) :=
  match ordqz (restrictedPencil A B C tol).1 (restrictedPencil A B C tol).2 with
  | .error e => .error e
  | .ok gev => .ok (compute_eigenvalues_post gev tol)

/-- `n_forward = int((C.sum(axis=0) > 0).sum())` (line 298): the count of
columns of `C` whose signed column sum is strictly positive. -/
def n_forward_code (C : List (List ℚ)) : ℕ :=
  ((List.range (ncols C)).filter fun j => 0 < colSum C j).length

/-- The count of forward-looking columns as the spec defines them:
columns of `C` whose absolute column sum exceeds `tol`. -/
def n_forward_spec (C : List (List ℚ)) (tol : ℚ) : ℕ :=
  (lead_var_idx C tol).length

/-- Shallow embedding of `check_bk_condition` (lines 266-307): compute the
eigenvalues, treat a decomposition failure as `False`, otherwise compare
`n_forward` with the number of records of modulus `> 1`
(`n_forward <= n_g_one`).  The embedding is a total function into `Bool`:
the `try/except` of the source means no exception escapes. -/
def check_bk_condition
    (ordqz : List (List ℚ) → List (List ℚ) → Except Unit (List (RC × RC)))
    (A B C : List (List ℚ)) (tol : ℚ) : Bool :=
  match compute_eigenvalues ordqz A B C tol with
  | .error _ => false
  | .ok eig => n_forward_code C ≤ (eig.filter fun r => 1 < r.1).length

/-- Claim C1 as stated: for every input (and every successful Schur
decomposition of its pencil), `check_bk_condition` returns `True` iff the
number of generalized eigenvalues of modulus strictly greater than `1` is
at least the number of columns of `C` whose absolute column sum exceeds
`tol`. -/
def BKConditionClaim : Prop :=
  ∀ ordqz A B C tol gev,
    ordqz (restrictedPencil A B C tol).1 (restrictedPencil A B C tol).2
        = .ok gev →
    (check_bk_condition ordqz A B C tol = true ↔
      n_forward_spec C tol
        ≤ (gev.filter fun p => 1 < RC.modSq (geneig p tol)).length)

/-- Claim C3's dropping rule as stated: an entry is dropped from the
report exactly when its denominator is numerically zero
(`|denominator| ≤ tol`, i.e. squared modulus at most `tol^2`). -/
def DroppedIffDenomZeroClaim : Prop :=
  ∀ gev tol,
    List.Perm (compute_eigenvalues_post gev tol)
      ((gev.filter fun p => tol * tol < RC.modSq p.1).map
          fun p => (RC.modSq (geneig p tol), (geneig p tol).re, (geneig p tol).im))

/-! ## SymbolDictionary (`classes/containers.py`)

A `SymbolDictionary` is an ordered Python dict (modelled as an association
list of key/value pairs in insertion order) together with an `is_sympy`
mode flag and a *mutable* `_assumptions` side table.  `copy()` aliases the
side table (`new_d._assumptions = self._assumptions`, line 69), so tables
live in an explicit store indexed by references, and each dictionary holds
a reference.

Keys are either strings or sympy symbols; the symbols relevant here are
plain `sp.Symbol`s and `TimeAwareSymbol`s.  `TimeAwareSymbol` itself and
the key conversions `string_keys_to_sympy` / `sympy_keys_to_strings`
(`shared/utilities.py`) are not part of the excerpted sources and are
modelled from the spec where needed. -/

/-- A sympy assumption record (`assumptions0`), e.g.
`{"commutative": True}`: a finite string-keyed table of booleans. -/
abbrev Assum := List (String × Bool)

/-- Modelled from the spec: a sympy symbol created with no explicit
assumptions still carries a nonempty default `assumptions0`
(`{'commutative': True}`). -/
def defaultAssum : Assum := [("commutative", true)]

/-- Modelled from the spec: `time_index ∈ ℤ ∪ {steady_state}`
(`TimeAwareSymbol` is declared in `classes/time_aware_symbol.py`, which is
not among the excerpted sources). -/
inductive TimeIndex
  | idx (k : ℤ)
  | ss
deriving DecidableEq

/-- Modelled from the spec: a `TimeAwareSymbol` is identified by
`(base_name, time_index)` and carries assumption metadata fixed at
creation; it is immutable. -/
structure TASymbol where
  base_name : String
  time_index : TimeIndex
  asm : Assum
deriving DecidableEq

/-- Modelled from the spec: `step_forward` returns a new symbol with
`time_index + 1` (the spec does not define stepping the steady-state
variant; the model leaves it fixed, keeping every operation total as the
spec's round-trip law for arbitrary symbols requires). -/
def TASymbol.step_forward (x : TASymbol) : TASymbol :=
  match x.time_index with
  | .idx k => ⟨x.base_name, .idx (k + 1), x.asm⟩
  | .ss => x

/-- Modelled from the spec: `step_backward` returns a new symbol with
`time_index - 1` (steady-state variant fixed, as for `step_forward`). -/
def TASymbol.step_backward (x : TASymbol) : TASymbol :=
  match x.time_index with
  | .idx k => ⟨x.base_name, .idx (k - 1), x.asm⟩
  | .ss => x

/-- Modelled from the spec: `to_ss()` returns the steady-state variant,
same base name and assumptions. -/
def TASymbol.to_ss (x : TASymbol) : TASymbol :=
  ⟨x.base_name, .ss, x.asm⟩

/-- A sympy symbol key: a plain `sp.Symbol` or a `TimeAwareSymbol`. -/
inductive SymKey
  | plain (name : String) (asm : Assum)
  | ta (s : TASymbol)
deriving DecidableEq

/-- The name under which `_save_assumptions` (lines 73-82) stores a key's
assumptions: `key.base_name` for a `TimeAwareSymbol`, `key.name`
otherwise. -/
def SymKey.baseName : SymKey → String
  | .plain n _ => n
  | .ta s => s.base_name

/-- The key's `assumptions0` record. -/
def SymKey.assumptions0 : SymKey → Assum
  | .plain _ a => a
  | .ta s => s.asm

/-- The `hasattr(k, func_name)` dispatch of `_step_dict_keys` (line 124):
only `TimeAwareSymbol`s have the step methods; plain symbols are kept. -/
def stepSymKey (f : TASymbol → TASymbol) : SymKey → SymKey
  | .plain n a => .plain n a
  | .ta s => .ta (f s)

/-- A dictionary key: a string or a sympy symbol. -/
inductive DKey
  | str (s : String)
  | sym (k : SymKey)
deriving DecidableEq

/-- `isinstance(key, sp.Symbol)`. -/
def DKey.isSym : DKey → Bool
  | .str _ => false
  | .sym _ => true

/-- `hasattr` dispatch lifted to dictionary keys. -/
def stepDKey (f : TASymbol → TASymbol) : DKey → DKey
  | .str s => .str s
  | .sym k => .sym (stepSymKey f k)

/-- First value bound to `k` (Python dict lookup; the lists we build keep
keys unique). -/
def lookupVal {K V : Type} [DecidableEq K] : List (K × V) → K → Option V
  | [], _ => none
  | (k', v) :: tl, k => if k' = k then some v else lookupVal tl k

/-- First-wins choice between two optional lookups (used to state the
union semantics of Python's `dict.update`). -/
def orElseVal {A : Type} (x y : Option A) : Option A :=
  match x with
  | some v => some v
  | none => y

/-- Python `d[k] = v` on an ordered dict: overwrite in place (keeping the
key's position) if the key exists, else append at the end. -/
def setEntry {K V : Type} [DecidableEq K] : List (K × V) → K → V → List (K × V)
  | [], k, v => [(k, v)]
  | p :: tl, k, v => if p.1 = k then (k, v) :: tl else p :: setEntry tl k v

/-- Python `d.update(m)`: fold `d[k] = v` over `m` in order. -/
def dictUpdate {K V : Type} [DecidableEq K] (l m : List (K × V)) : List (K × V) :=
  m.foldl (fun acc p => setEntry acc p.1 p.2) l

/-- Building a fresh Python dict from a pair stream (`{}` then insertion):
deduplicates on the fly, later values winning. -/
def dedupFold {K V : Type} [DecidableEq K] (l : List (K × V)) : List (K × V) :=
  l.foldl (fun acc p => setEntry acc p.1 p.2) []

/-- The keys of an association list. -/
def keysOf {K V : Type} (l : List (K × V)) : List K := l.map Prod.fst

/-- The store of mutable `_assumptions` tables: a table per allocated
reference. -/
structure Store where
  tabs : ℕ → List (String × Assum)
  next : ℕ

/-- Overwrite the table at reference `r` (an in-place mutation of the
aliased Python dict). -/
def Store.set (σ : Store) (r : ℕ) (t : List (String × Assum)) : Store :=
  ⟨fun i => if i = r then t else σ.tabs i, σ.next⟩

/-- Allocate a fresh table (a new `_assumptions` dict). -/
def Store.alloc (σ : Store) (t : List (String × Assum)) : Store × ℕ :=
  (⟨fun i => if i = σ.next then t else σ.tabs i, σ.next + 1⟩, σ.next)

/-- The embedded `SymbolDictionary`: ordered entries, `is_sympy` flag and
the reference of its `_assumptions` table. -/
structure SymbolDictionary (V : Type) where
  entries : List (DKey × V)
  is_sympy : Bool
  ref : ℕ

/-- The two exception classes the container raises: `KeyError` in
`__init__`/`__setitem__` and `ValueError` in `__or__`. -/
inductive DictErr
  | keyTypeError
  | modeMismatch
deriving DecidableEq

/-- `_save_assumptions(keys)` (lines 73-82) for a sympy-mode dictionary:
store `key.assumptions0` under the key's base name, in key order. -/
def saveAssumTable (keys : List DKey) (t : List (String × Assum)) :
    List (String × Assum) :=
  keys.foldl
    (fun acc k =>
      match k with
      | .sym sk => setEntry acc sk.baseName sk.assumptions0
      | .str _ => acc) t

/-- `SymbolDictionary.__init__` (lines 14-32): determine the mode from the
first key, reject mixed string/symbol keys with `KeyError`, allocate the
`_assumptions` table and populate it from the keys when in sympy mode. -/
def SymbolDictionary.init {V : Type} (entries : List (DKey × V)) (σ : Store) :
    Except DictErr (Store × SymbolDictionary V) :=
  let keys := keysOf entries
  let isSympy := match keys with
    | [] => false
    | k :: _ => k.isSym
  if isSympy && keys.any fun k => !k.isSym then .error .keyTypeError
  else if !isSympy && keys.any fun k => k.isSym then .error .keyTypeError
  else
    let tab := if isSympy then saveAssumTable keys [] else []
    let p := σ.alloc tab
    .ok (p.1, ⟨entries, isSympy, p.2⟩)

/-- `SymbolDictionary.copy` (lines 66-71): same entries, same flag, and
the *same* `_assumptions` reference (`new_d._assumptions =
self._assumptions` aliases the table; the fresh table allocated by the
intermediate `SymbolDictionary(super().copy())` call is discarded by that
reassignment, so the model elides the garbage allocation). -/
def SymbolDictionary.copy {V : Type} (d : SymbolDictionary V) : SymbolDictionary V :=
  ⟨d.entries, d.is_sympy, d.ref⟩

/-- `SymbolDictionary.__or__` (lines 34-64) for two `SymbolDictionary`
operands: `d_copy = self.copy()` aliases `self`'s table; if `self` is
empty, return a copy of `other` after merging `self`'s assumptions *into
`other`'s table in place*; if `other` is empty, merge its assumptions into
`self`'s table in place and return `d_copy`; if the populated operands
disagree on mode, raise `ValueError`; otherwise update entries (`other`'s
values winning) and merge `other`'s assumptions into `self`'s table. -/
def SymbolDictionary.or {V : Type} (σ : Store) (a b : SymbolDictionary V) :
    Except DictErr (Store × SymbolDictionary V) :=
  let d_copy := a.copy
  if a.entries.isEmpty then
    let other_copy := b.copy
    .ok (σ.set b.ref (dictUpdate (σ.tabs b.ref) (σ.tabs a.ref)), other_copy)
  else if b.entries.isEmpty then
    .ok (σ.set a.ref (dictUpdate (σ.tabs a.ref) (σ.tabs b.ref)), d_copy)
  else if a.is_sympy != b.is_sympy then .error .modeMismatch
  else
    .ok (σ.set a.ref (dictUpdate (σ.tabs a.ref) (σ.tabs b.ref)),
      ⟨dictUpdate a.entries b.entries, d_copy.is_sympy, d_copy.ref⟩)

/-- `SymbolDictionary.__setitem__` (lines 84-92): an empty dictionary
adopts the key's mode; a populated one rejects a key of the other mode
with `KeyError`; on success the entry is stored and, in sympy mode,
`_save_assumptions(key)` updates the table in place. -/
def SymbolDictionary.setitem {V : Type} (σ : Store) (d : SymbolDictionary V)
    (k : DKey) (v : V) : Except DictErr (Store × SymbolDictionary V) :=
  if d.entries.isEmpty then
    match k with
    | .sym sk =>
        .ok (σ.set d.ref (setEntry (σ.tabs d.ref) sk.baseName sk.assumptions0),
          ⟨setEntry d.entries k v, true, d.ref⟩)
    | .str _ => .ok (σ, ⟨setEntry d.entries k v, false, d.ref⟩)
  else if d.is_sympy && !k.isSym then .error .keyTypeError
  else if !d.is_sympy && k.isSym then .error .keyTypeError
  else
    match k with
    | .sym sk =>
        .ok (σ.set d.ref (setEntry (σ.tabs d.ref) sk.baseName sk.assumptions0),
          ⟨setEntry d.entries k v, d.is_sympy, d.ref⟩)
    | .str _ => .ok (σ, ⟨setEntry d.entries k v, d.is_sympy, d.ref⟩)

/-- Modelled from the spec: the string-to-symbol and symbol-to-string key
conversions of `shared/utilities.py` (not among the excerpted sources).
`toSym` may consult the assumption table passed by `to_sympy`; the spec
requires that the conversions round-trip (`toStr_toSym`) and that
re-promoting a demoted stepped key re-creates the stepped symbol
(`toSym_step`: converting between representations commutes with the
per-symbol time shift). -/
structure SymCodec where
  toSym : String → List (String × Assum) → SymKey
  toStr : SymKey → String
  toStr_toSym : ∀ s t, toStr (toSym s t) = s
  toSym_step : ∀ s t t' f,
    toSym (toStr (stepSymKey f (toSym s t))) t' = stepSymKey f (toSym s t')

/-- A concrete conversion satisfying the spec's requirements: every string
becomes a plain symbol named by it, carrying the assumptions stored for it
(or sympy's default assumptions), and symbols demote to their base name. -/
def plainCodec : SymCodec where
  toSym s t := .plain s ((lookupVal t s).getD defaultAssum)
  toStr k := k.baseName
  toStr_toSym := fun _ _ => rfl
  toSym_step := fun _ _ _ _ => rfl

/-- Key promotion inside `string_keys_to_sympy`: strings become symbols,
symbol keys pass through. -/
def promoteKey (c : SymCodec) (t : List (String × Assum)) : DKey → DKey
  | .str s => .sym (c.toSym s t)
  | .sym k => .sym k

/-- Key demotion inside `sympy_keys_to_strings`: symbols become their
string names, string keys pass through. -/
def demoteKey (c : SymCodec) : DKey → DKey
  | .str s => .str s
  | .sym k => .str (c.toStr k)

/-- `_clean_update(d)` (lines 94-100) applied to `self`: replace `self`'s
entries, clear `self`'s own table and refill it from `d`'s, adopt `d`'s
mode.  `self` keeps its reference (the mutation is visible through every
alias). -/
def SymbolDictionary.clean_update {V : Type} (σ : Store)
    (d dnew : SymbolDictionary V) : Store × SymbolDictionary V :=
  (σ.set d.ref (dictUpdate [] (σ.tabs dnew.ref)),
   ⟨dnew.entries, dnew.is_sympy, d.ref⟩)

/-- `to_sympy(inplace=False)` with default `new_assumptions` (lines
102-114): promote the keys, consulting `self._assumptions`, and build a
fresh `SymbolDictionary` (whose constructor rebuilds the assumption table
from the promoted keys). -/
def SymbolDictionary.to_sympy {V : Type} (c : SymCodec) (σ : Store)
    (d : SymbolDictionary V) : Except DictErr (Store × SymbolDictionary V) :=
  SymbolDictionary.init
    (dedupFold (d.entries.map fun p => (promoteKey c (σ.tabs d.ref) p.1, p.2))) σ

/-- `to_sympy(inplace=True)`: build the promoted dictionary, then
`_clean_update` `self` with it. -/
def SymbolDictionary.to_sympy_inplace {V : Type} (c : SymCodec) (σ : Store)
    (d : SymbolDictionary V) : Except DictErr (Store × SymbolDictionary V) :=
  (SymbolDictionary.to_sympy c σ d).bind fun p =>
    .ok (SymbolDictionary.clean_update p.1 d p.2)

/-- `to_string(inplace=False)` (lines 162-171): demote the keys into a
fresh dictionary, then overwrite its table with a copy of `self`'s
(`d._assumptions = copy_dict._assumptions.copy()`). -/
def SymbolDictionary.to_string {V : Type} (c : SymCodec) (σ : Store)
    (d : SymbolDictionary V) : Except DictErr (Store × SymbolDictionary V) :=
  (SymbolDictionary.init
      (dedupFold (d.entries.map fun p => (demoteKey c p.1, p.2))) σ).bind
    fun p => .ok (p.1.set p.2.ref (σ.tabs d.ref), p.2)

/-- `to_string(inplace=True)`: build the demoted dictionary, then
`_clean_update` `self` with it. -/
def SymbolDictionary.to_string_inplace {V : Type} (c : SymCodec) (σ : Store)
    (d : SymbolDictionary V) : Except DictErr (Store × SymbolDictionary V) :=
  (SymbolDictionary.to_string c σ d).bind fun p =>
    .ok (SymbolDictionary.clean_update p.1 d p.2)

/-- `_step_dict_keys(func_name)` (lines 116-133): copy `self`; promote the
copy in place when in string mode; build a plain dict mapping each stepped
key to its value (`hasattr` dispatch, later keys winning on collision);
wrap it in a fresh `SymbolDictionary`; demote in place when the original
was in string mode. -/
def SymbolDictionary.step_dict_keys {V : Type} (c : SymCodec)
    (f : TASymbol → TASymbol) (σ : Store) (d : SymbolDictionary V) :
    Except DictErr (Store × SymbolDictionary V) :=
  if d.is_sympy then
    SymbolDictionary.init
      (dedupFold (d.copy.entries.map fun p => (stepDKey f p.1, p.2))) σ
  else
    (SymbolDictionary.to_sympy_inplace c σ d.copy).bind fun q =>
      (SymbolDictionary.init
          (dedupFold (q.2.entries.map fun p => (stepDKey f p.1, p.2))) q.1).bind
        fun p => SymbolDictionary.to_string_inplace c p.1 p.2

/-- `step_forward(inplace=False)` (lines 144-151). -/
def SymbolDictionary.step_forward {V : Type} (c : SymCodec) (σ : Store)
    (d : SymbolDictionary V) : Except DictErr (Store × SymbolDictionary V) :=
  SymbolDictionary.step_dict_keys c TASymbol.step_forward σ d

/-- `step_backward(inplace=False)` (lines 135-142). -/
def SymbolDictionary.step_backward {V : Type} (c : SymCodec) (σ : Store)
    (d : SymbolDictionary V) : Except DictErr (Store × SymbolDictionary V) :=
  SymbolDictionary.step_dict_keys c TASymbol.step_backward σ d

/-- `to_ss(inplace=False)` (lines 153-160). -/
def SymbolDictionary.to_ss {V : Type} (c : SymCodec) (σ : Store)
    (d : SymbolDictionary V) : Except DictErr (Store × SymbolDictionary V) :=
  SymbolDictionary.step_dict_keys c TASymbol.to_ss σ d

/-- The single-mode invariant: every key agrees with the `is_sympy`
flag. -/
def ModeOk {V : Type} (d : SymbolDictionary V) : Prop :=
  ∀ p ∈ d.entries, p.1.isSym = d.is_sympy

/-- Claim C7 as stated, at the spec-modelled conversion `plainCodec`: for
every non-empty string-mode dictionary (well-formed: uniformly string
keys, no duplicate keys, a live table reference), `d.to_sympy().to_string()`
equals `d` — the same entries (keys and values) and the same assumption
side-table. -/
def ToSympyToStringClaim : Prop :=
  ∀ (σ : Store) (d : SymbolDictionary ℤ),
    d.is_sympy = false → (∀ p ∈ d.entries, p.1.isSym = false) →
    d.entries ≠ [] → (keysOf d.entries).Nodup → d.ref < σ.next →
    ∃ σ1 d1 σ2 d2,
      SymbolDictionary.to_sympy plainCodec σ d = .ok (σ1, d1) ∧
      SymbolDictionary.to_string plainCodec σ1 d1 = .ok (σ2, d2) ∧
      d2.entries = d.entries ∧ σ2.tabs d2.ref = σ.tabs d.ref

/-- Modelled from the spec: the error taxonomy of the distribution parser
(section 4.2 and the exceptions consumed by `tests/test_distribution_parser.py`).
`missingParameterValue` is raised earlier, by `preprocess_gcn`. -/
inductive DistTaxonomyErr
  | invalidDistribution
  | distributionParsing
  | repeatedParameter
  | missingParameterValue
deriving DecidableEq

/-- Number of occurrences of a character. -/
def countChar (c : Char) : List Char → ℕ
  | [] => 0
  | x :: xs => (if x = c then 1 else 0) + countChar c xs

/-- Split at the first occurrence of a character: the part before it and
the part after it (Python `str.split(c, 1)`). -/
def splitAtChar (c : Char) : List Char → List Char × List Char
  | [] => ([], [])
  | x :: xs =>
      if x = c then ([], xs)
      else
        let r := splitAtChar c xs
        (x :: r.1, r.2)

/-- Split on every occurrence of a character (Python `str.split(c)`). -/
def splitOnChar (c : Char) : List Char → List (List Char)
  | [] => [[]]
  | x :: xs =>
      let r := splitOnChar c xs
      if x = c then [] :: r
      else
        match r with
        | [] => [[x]]
        | h :: t => (x :: h) :: t

/-- Remove leading spaces. -/
def dropSpaces : List Char → List Char
  | [] => []
  | x :: xs => if x = ' ' then dropSpaces xs else x :: xs

/-- Python `str.strip()` restricted to spaces. -/
def trimSpaces (l : List Char) : List Char :=
  (dropSpaces (dropSpaces l).reverse).reverse

/-- Membership of a parameter name among already-parsed pairs. -/
def hasKeyChars (nm : List Char) : List (List Char × List Char) → Bool
  | [] => false
  | (k, _) :: tl => if k = nm then true else hasKeyChars nm tl

/-- Modelled from the spec (section 4.2) with the classification the
in-repository tests pin down: each comma-separated piece must contain
exactly one `=` (a piece holding `==`, or two pairs missing their comma,
fails this check and is an InvalidDistributionException), and a parameter
name may not repeat (RepeatedParameterException). -/
def parseParams : List (List Char) → List (List Char × List Char) →
    Except DistTaxonomyErr (List (List Char × List Char))
  | [], acc => .ok acc.reverse
  | piece :: rest, acc =>
      if countChar '=' piece = 1 then
        if hasKeyChars (trimSpaces (splitAtChar '=' piece).1) acc then
          .error .repeatedParameter
        else
          parseParams rest
            ((trimSpaces (splitAtChar '=' piece).1,
              trimSpaces (splitAtChar '=' piece).2) :: acc)
      else .error .invalidDistribution

/-- Modelled from the spec: `preprocess_distribution_string` validates a
raw `Kind(p1=v1, p2=v2, ...)` declaration — exactly one top-level
parenthesis pair (else InvalidDistributionException), then strictly
comma-separated single-`=` pairs without repetition — returning the kind
name and the parameter pairs.  (The variable name passed by the Python
function is only used in error messages and is omitted.) -/
def preprocess_distribution_string (d : List Char) :
    Except DistTaxonomyErr (List Char × List (List Char × List Char)) :=
  if countChar '(' d = 1 ∧ countChar ')' d = 1 then
    (parseParams (splitOnChar ','
        ((splitAtChar ')' (splitAtChar '(' d).2).1)) []).bind
      fun ps => .ok ((splitAtChar '(' d).1, ps)
  else .error .invalidDistribution

/-- Whether the raw declaration contains a malformed `==`. -/
def hasDoubleEq : List Char → Bool
  | '=' :: '=' :: _ => true
  | _ :: tl => hasDoubleEq tl
  | [] => false

/-- Claim C5 as stated for the `==` defect: a declaration containing a
malformed equality is rejected with DistributionParsingError. -/
def DistributionClaimC5 : Prop :=
  ∀ d : List Char, hasDoubleEq d = true →
    preprocess_distribution_string d = .error .distributionParsing

instance : IsTotal (ℚ × ℚ × ℚ) fun x y => x.1 ≤ y.1 :=
  ⟨fun a b => le_total a.1 b.1⟩

instance : IsTrans (ℚ × ℚ × ℚ) fun x y => x.1 ≤ y.1 :=
  ⟨fun _ _ _ => le_trans⟩

/-- Generic fact about the row fold: if no visited slot writes column `j`,
the cell keeps its initial value. -/
theorem foldl_write_of_none (data : List ℚ) (indices : List ℕ) (j : ℕ)
    (slots : List ℕ) (init : ℚ) (h : ∀ d ∈ slots, indices.getD d 0 ≠ j) :
    slots.foldl (fun acc d => if indices.getD d 0 = j then data.getD d 0 else acc) init
      = init := by
  induction slots generalizing init with
  | nil => rfl
  | cons a tl ih =>
      simp only [List.foldl_cons]
      rw [if_neg (h a (List.mem_cons_self a tl))]
      exact ih init fun d hd => h d (List.mem_cons_of_mem a hd)

/-- Generic fact about the row fold: if exactly one visited slot writes
column `j`, the cell ends with that slot's datum. -/
theorem foldl_write_of_unique (data : List ℚ) (indices : List ℕ) (j : ℕ)
    (slots : List ℕ) (init : ℚ) (d : ℕ) (hd : d ∈ slots)
    (hcol : indices.getD d 0 = j)
    (huniq : ∀ e ∈ slots, indices.getD e 0 = j → e = d) :
    slots.foldl (fun acc e => if indices.getD e 0 = j then data.getD e 0 else acc) init
      = data.getD d 0 := by
  induction slots generalizing init with
  | nil => exact absurd hd (List.not_mem_nil d)
  | cons a tl ih =>
      simp only [List.foldl_cons]
      by_cases hmem : d ∈ tl
      · exact ih _ hmem fun e he hej => huniq e (List.mem_cons_of_mem a he) hej
      · have had : a = d := by
          rcases List.mem_cons.mp hd with h | h
          · exact h.symm
          · exact absurd h hmem
        subst had
        rw [if_pos hcol]
        exact foldl_write_of_none data indices j tl _ fun e he hej =>
          hmem (by rwa [huniq e (List.mem_cons_of_mem a he) hej] at he)

theorem mem_rowSlots {idxptrs : List ℕ} {i p : ℕ} :
    p ∈ rowSlots idxptrs i ↔
      idxptrs.getD i 0 ≤ p ∧ p < idxptrs.getD (i + 1) 0 ∨
      idxptrs.getD i 0 ≤ p ∧ p < idxptrs.getD i 0 +
        (idxptrs.getD (i + 1) 0 - idxptrs.getD i 0) := by
  constructor
  · intro h
    right
    exact ⟨(List.mem_range'_1.mp h).1, (List.mem_range'_1.mp h).2⟩
  · intro h
    rcases h with ⟨h1, h2⟩ | ⟨h1, h2⟩
    · exact List.mem_range'_1.mpr ⟨h1, lt_of_lt_of_le h2 (le_add_tsub)⟩
    · exact List.mem_range'_1.mpr ⟨h1, h2⟩

theorem mem_rowSlots_of_mono {idxptrs : List ℕ} {i p : ℕ}
    (hmono : idxptrs.getD i 0 ≤ idxptrs.getD (i + 1) 0) :
    p ∈ rowSlots idxptrs i ↔
      idxptrs.getD i 0 ≤ p ∧ p < idxptrs.getD (i + 1) 0 := by
  unfold rowSlots
  rw [List.mem_range'_1, Nat.add_sub_cancel' hmono]

/-- Row-pointer monotonicity extends to any pair of boundaries. -/
theorem CSRWellFormed.ptr_le {indices idxptrs : List ℕ} {shape : ℕ × ℕ}
    (wf : CSRWellFormed indices idxptrs shape) :
    ∀ i k, i ≤ k → k ≤ shape.1 → idxptrs.getD i 0 ≤ idxptrs.getD k 0 := by
  intro i k hik hk
  induction k with
  | zero =>
      have : i = 0 := Nat.le_zero.mp hik
      simp [this]
  | succ n ih =>
      rcases Nat.lt_or_ge i (n + 1) with h | h
      · have h1 : idxptrs.getD i 0 ≤ idxptrs.getD n 0 :=
          ih (Nat.lt_succ_iff.mp h) (le_trans (Nat.le_succ n) hk)
        exact le_trans h1 (wf.ptr_mono n (Nat.lt_of_succ_le hk))
      · have : i = n + 1 := le_antisymm hik h
        simp [this]

/-- Claim C2: for a CSR triple satisfying the invariants guaranteed by the
sparse compiler, `build_system_matrices` densifies via
`matrix_from_csr_data`, and the dense matrix satisfies exactly
`dense[i, column_indices[p]] = closures[p](params)` for every row `i` and
slot `p` in `[row_pointers[i], row_pointers[i+1])`, and `dense[i, j] = 0`
for every in-shape position not addressed by any slot of its row. -/
theorem matrix_from_csr_data_exact
    (params : String → ℚ)
    (fs : List ((String → ℚ) → ℚ)) (indices idxptrs : List ℕ) (shape : ℕ × ℕ)
    (wf : CSRWellFormed indices idxptrs shape)
    (hlen : fs.length = indices.length) :
    build_system_matrices params [(fs, indices, idxptrs, shape)]
        = [matrix_from_csr_data (fs.map fun f => f params) indices idxptrs shape] ∧
    (∀ i p, i < shape.1 → idxptrs.getD i 0 ≤ p → p < idxptrs.getD (i + 1) 0 →
      matrix_from_csr_data (fs.map fun f => f params) indices idxptrs shape
          i (indices.getD p 0)
        = (fs.getD p fun _ => 0) params) ∧
    (∀ i j, i < shape.1 → j < shape.2 →
      (∀ p, idxptrs.getD i 0 ≤ p → p < idxptrs.getD (i + 1) 0 →
        indices.getD p 0 ≠ j) →
      matrix_from_csr_data (fs.map fun f => f params) indices idxptrs shape i j = 0) := by
  refine ⟨rfl, ?_, ?_⟩
  · intro i p hi hp1 hp2
    have hple : idxptrs.getD (i + 1) 0 ≤ idxptrs.getD shape.1 0 :=
      wf.ptr_le (i + 1) shape.1 (Nat.succ_le_of_lt hi) (le_refl _)
    have hp_len : p < indices.length := by rw [← wf.ptr_last]; omega
    have hj_mem : indices.getD p 0 ∈ indices := by
      rw [List.getD_eq_getElem?_getD, List.getElem?_eq_getElem hp_len]
      exact List.getElem_mem hp_len
    have hj : indices.getD p 0 < shape.2 := wf.cols_lt _ hj_mem
    have hmem : p ∈ rowSlots idxptrs i :=
      (mem_rowSlots_of_mono (wf.ptr_mono i hi)).mpr ⟨hp1, hp2⟩
    have huniq : ∀ e ∈ rowSlots idxptrs i, indices.getD e 0 = indices.getD p 0 → e = p := by
      intro e he hej
      have he' := (mem_rowSlots_of_mono (wf.ptr_mono i hi)).mp he
      by_contra hne
      rcases Nat.lt_or_ge e p with h | h
      · exact absurd hej (Nat.ne_of_lt (wf.row_strict i hi e p he'.1 h hp2))
      · have hpe : p < e := lt_of_le_of_ne h fun h2 => hne h2.symm
        exact absurd hej (Nat.ne_of_gt (wf.row_strict i hi p e hp1 hpe he'.2))
    unfold matrix_from_csr_data
    rw [if_pos ⟨hi, hj⟩,
      foldl_write_of_unique (fs.map fun f => f params) indices _ _ _ p hmem rfl huniq]
    have hfp : p < fs.length := by rw [hlen]; exact hp_len
    rw [List.getD_eq_getElem?_getD, List.getElem?_map, List.getElem?_eq_getElem hfp,
      List.getD_eq_getElem?_getD, List.getElem?_eq_getElem hfp]
    rfl
  · intro i j hi hj hnone
    unfold matrix_from_csr_data
    rw [if_pos ⟨hi, hj⟩]
    refine foldl_write_of_none (fs.map fun f => f params) indices j _ 0 fun d hd => ?_
    have hd' := (mem_rowSlots_of_mono (wf.ptr_mono i hi)).mp hd
    exact hnone d hd'.1 hd'.2

/-- Witness for `matrix_from_csr_data_exact` at a concrete CSR triple:
`fs = [p ↦ p "a", _ ↦ 2]`, `indices = [1, 0]`, `idxptrs = [0, 1, 2]`,
`shape = (2, 2)`, `params = (_ ↦ 3)`; slot `0` of row `0` lands in cell
`(0, 1)` with value `3`. -/
theorem matrix_from_csr_data_exact_witness :
    matrix_from_csr_data
        ([fun p => p "a", fun _ => 2].map fun f => f fun _ => 3)
        [1, 0] [0, 1, 2] (2, 2) 0 1 = 3 := by
  have wf : CSRWellFormed [1, 0] [0, 1, 2] (2, 2) := by
    refine ⟨rfl, rfl, ?_, rfl, ?_, ?_⟩
    · decide
    · decide
    · intro i hi p q h1 h2 h3
      interval_cases i
      · exfalso
        have h3' : q < 1 := h3
        omega
      · exfalso
        have h1' : 1 ≤ p := h1
        have h3' : q < 2 := h3
        omega
  exact (matrix_from_csr_data_exact (fun _ => 3) [fun p => p "a", fun _ => 2]
    [1, 0] [0, 1, 2] (2, 2) wf rfl).2.1 0 0 (by decide) (by decide) (by decide)

/-- Claim C3 counterexample: the dropping rule of the claim is false.  For
the Schur pair `(alpha, beta) = (1, 0)` the denominator `1 + tol` is not
numerically zero (`|1| > tol`), so the claim says the entry is kept; the
code computes the ratio `0 / (1 + tol) = 0` and drops it because
`|eigenval| > 0` fails. -/
theorem compute_eigenvalues_drop_counterexample : ¬ DroppedIffDenomZeroClaim := by
  intro h
  have h1 := h [(⟨1, 0⟩, ⟨0, 0⟩)] (1 / 100000000)
  have h2 : compute_eigenvalues_post [((⟨1, 0⟩ : RC), (⟨0, 0⟩ : RC))] (1 / 100000000)
      = [] := by
    norm_num [compute_eigenvalues_post, geneig, RC.div, RC.addQ, RC.modSq]
  rw [h2] at h1
  have h3 := h1.length_eq
  norm_num [RC.modSq, List.filter] at h3

/-- Claim C3, amended: every reported generalized eigenvalue is the ratio
`beta / (alpha + tol)` of the two diagonal Schur factors (`tol` added to
the denominator before dividing); an entry is dropped exactly when that
ratio has modulus zero (not when the denominator is numerically zero); the
remaining entries are reported as `(modulus, real, imaginary)` records
(squared modulus in the embedding) sorted ascending by modulus. -/
theorem compute_eigenvalues_post_spec (gev : List (RC × RC)) (tol : ℚ) :
    List.Sorted (fun x y => x.1 ≤ y.1) (compute_eigenvalues_post gev tol) ∧
    List.Perm (compute_eigenvalues_post gev tol)
      (((gev.map fun p => geneig p tol).filter fun z => 0 < RC.modSq z).map
        fun z => (RC.modSq z, z.re, z.im)) ∧
    ∀ r ∈ compute_eigenvalues_post gev tol,
      ∃ p ∈ gev,
        r = (RC.modSq (geneig p tol), (geneig p tol).re, (geneig p tol).im)
          ∧ 0 < RC.modSq (geneig p tol) := by
  refine ⟨List.sorted_insertionSort _ _, List.perm_insertionSort _ _, ?_⟩
  intro r hr
  have hr2 : r ∈ ((gev.map fun p => geneig p tol).filter
      fun z => 0 < RC.modSq z).map fun z => (RC.modSq z, z.re, z.im) :=
    (List.perm_insertionSort _ _).mem_iff.mp hr
  obtain ⟨z, hz, rfl⟩ := List.mem_map.mp hr2
  obtain ⟨hzmem, hzpos⟩ := List.mem_filter.mp hz
  obtain ⟨p, hp, rfl⟩ := List.mem_map.mp hzmem
  exact ⟨p, hp, rfl, by simpa using hzpos⟩

/-- Claim C1 counterexample: with `C = [[-1]]` the only column of `C` has
absolute sum `1 > tol` (one forward-looking variable per the claim) but
signed sum `-1`, so the code counts `n_forward = 0`.  The concrete Schur
diagonal pairs `(2, 1), (-2, -1)` give the true generalized eigenvalues
`±1/2` of the pencil of `A = [[1/4]], B = [[0]], C = [[-1]]`, none of
modulus `> 1`; the code returns `True` (`0 ≤ 0`) while the claim demands
`False` (`1 ≤ 0` fails). -/
theorem check_bk_condition_counterexample : ¬ BKConditionClaim := by
  intro h
  have h1 := h (fun _ _ => .ok [(⟨2, 0⟩, ⟨1, 0⟩), (⟨-2, 0⟩, ⟨-1, 0⟩)])
      [[(1 : ℚ) / 4]] [[0]] [[-1]] (1 / 100000000)
      [(⟨2, 0⟩, ⟨1, 0⟩), (⟨-2, 0⟩, ⟨-1, 0⟩)] rfl
  have hT : check_bk_condition
      (fun _ _ => .ok [(⟨2, 0⟩, ⟨1, 0⟩), (⟨-2, 0⟩, ⟨-1, 0⟩)])
      [[(1 : ℚ) / 4]] [[0]] [[-1]] (1 / 100000000) = true := by
    norm_num [check_bk_condition, compute_eigenvalues, compute_eigenvalues_post,
      geneig, RC.div, RC.addQ, RC.modSq, n_forward_code, ncols, colSum,
      List.insertionSort, List.orderedInsert, List.filter, List.range_succ]
  have h2 := h1.mp hT
  norm_num [n_forward_spec, lead_var_idx, ncols, colAbsSum, geneig, RC.div,
    RC.addQ, RC.modSq, List.filter, List.range_succ] at h2

/-- Claim C1, amended: `check_bk_condition` returns `True` iff the Schur
decomposition succeeds and the number of reported eigenvalue records of
modulus strictly greater than `1` is at least `n_forward`, where
`n_forward` is the number of columns of `C` whose *signed* column sum is
strictly positive (`(C.sum(axis=0) > 0).sum()`), not the spec's count of
columns of absolute sum above `tol`. -/
theorem check_bk_condition_amended
    (ordqz : List (List ℚ) → List (List ℚ) → Except Unit (List (RC × RC)))
    (A B C : List (List ℚ)) (tol : ℚ) :
    check_bk_condition ordqz A B C tol = true ↔
      ∃ gev,
        ordqz (restrictedPencil A B C tol).1 (restrictedPencil A B C tol).2
            = .ok gev ∧
        n_forward_code C
          ≤ ((compute_eigenvalues_post gev tol).filter fun r => 1 < r.1).length := by
  unfold check_bk_condition compute_eigenvalues
  cases hq : ordqz (restrictedPencil A B C tol).1 (restrictedPencil A B C tol).2 with
  | error e => simp
  | ok gev => simp

/-- Claim C4: `check_bk_condition` never propagates a decomposition
failure: whenever the Schur decomposition of the pencil errors, the
function returns `False`.  (The embedding is a total function into `Bool`,
mirroring the source's blanket `except Exception: return False`.) -/
theorem check_bk_condition_decomposition_failure
    (ordqz : List (List ℚ) → List (List ℚ) → Except Unit (List (RC × RC)))
    (A B C : List (List ℚ)) (tol : ℚ) (e : Unit)
    (h : ordqz (restrictedPencil A B C tol).1 (restrictedPencil A B C tol).2
      = .error e) :
    check_bk_condition ordqz A B C tol = false := by
  unfold check_bk_condition compute_eigenvalues
  rw [h]

/-- Witness for `check_bk_condition_decomposition_failure` with an oracle
that always fails. -/
theorem check_bk_condition_decomposition_failure_witness :
    check_bk_condition (fun _ _ => .error ()) [[1]] [[1]] [[1]] (1 / 100000000)
      = false :=
  check_bk_condition_decomposition_failure (fun _ _ => .error ())
    [[1]] [[1]] [[1]] (1 / 100000000) () rfl

theorem setEntry_of_not_mem {K V : Type} [DecidableEq K] (l : List (K × V))
    (k : K) (v : V) (h : k ∉ keysOf l) : setEntry l k v = l ++ [(k, v)] := by
  induction l with
  | nil => rfl
  | cons p tl ih =>
      obtain ⟨pk, pv⟩ := p
      have hpk : ¬ pk = k := by
        intro he
        exact h (by simp [keysOf, he])
      have htl : k ∉ keysOf tl := fun hm => h (by simp [keysOf] at hm ⊢; exact Or.inr hm)
      simp [setEntry, hpk, ih htl]

theorem lookupVal_eq_none {K V : Type} [DecidableEq K] (l : List (K × V)) (k : K) :
    lookupVal l k = none ↔ k ∉ keysOf l := by
  induction l with
  | nil => simp [lookupVal, keysOf]
  | cons p tl ih =>
      obtain ⟨pk, pv⟩ := p
      by_cases h : pk = k
      · subst h
        simp [lookupVal, keysOf]
      · simp [lookupVal, keysOf, h, Ne.symm h, ih]

theorem lookupVal_append {K V : Type} [DecidableEq K] (l m : List (K × V)) (k : K) :
    lookupVal (l ++ m) k = orElseVal (lookupVal l k) (lookupVal m k) := by
  induction l with
  | nil => rfl
  | cons p tl ih =>
      by_cases hp : p.1 = k <;> simp [lookupVal, hp, ih, orElseVal]

theorem lookupVal_setEntry_self {K V : Type} [DecidableEq K] (l : List (K × V))
    (k : K) (v : V) : lookupVal (setEntry l k v) k = some v := by
  induction l with
  | nil => simp [setEntry, lookupVal]
  | cons p tl ih =>
      obtain ⟨pk, pv⟩ := p
      by_cases hp : pk = k
      · subst hp
        simp [setEntry, lookupVal]
      · simp [setEntry, lookupVal, hp, ih]

theorem lookupVal_setEntry_ne {K V : Type} [DecidableEq K] (l : List (K × V))
    (k : K) (v : V) (k' : K) (h : k' ≠ k) :
    lookupVal (setEntry l k v) k' = lookupVal l k' := by
  induction l with
  | nil => simp [setEntry, lookupVal, Ne.symm h]
  | cons p tl ih =>
      obtain ⟨pk, pv⟩ := p
      by_cases hp : pk = k
      · subst hp
        simp [setEntry, lookupVal, Ne.symm h]
      · simp [setEntry, lookupVal, hp, ih]

theorem lookupVal_dictUpdate {K V : Type} [DecidableEq K] (l m : List (K × V))
    (hm : (keysOf m).Nodup) (k : K) :
    lookupVal (dictUpdate l m) k = orElseVal (lookupVal m k) (lookupVal l k) := by
  induction m generalizing l with
  | nil => rfl
  | cons q m' ih =>
      have hq : (keysOf m').Nodup := (List.nodup_cons.mp hm).2
      have hqq : q.1 ∉ keysOf m' := (List.nodup_cons.mp hm).1
      show lookupVal (dictUpdate (setEntry l q.1 q.2) m') k = _
      rw [ih _ hq]
      by_cases h : q.1 = k
      · subst h
        rw [(lookupVal_eq_none m' q.1).mpr hqq]
        simp [lookupVal, lookupVal_setEntry_self, orElseVal]
      · rw [lookupVal_setEntry_ne l q.1 q.2 k fun he => h he.symm]
        simp [lookupVal, h, orElseVal]

theorem mem_setEntry {K V : Type} [DecidableEq K] {l : List (K × V)} {k : K}
    {v : V} {p : K × V} (h : p ∈ setEntry l k v) : p ∈ l ∨ p = (k, v) := by
  induction l with
  | nil =>
      right
      simpa [setEntry] using h
  | cons q tl ih =>
      obtain ⟨qk, qv⟩ := q
      by_cases hq : qk = k
      · subst hq
        simp [setEntry] at h
        rcases h with h | h
        · right
          simp [h]
        · left
          exact List.mem_cons_of_mem _ h
      · simp [setEntry, hq] at h
        rcases h with h | h
        · left
          simp [h]
        · rcases ih h with h2 | h2
          · left
            exact List.mem_cons_of_mem _ h2
          · right
            exact h2

theorem mem_dictUpdate {K V : Type} [DecidableEq K] {l m : List (K × V)}
    {p : K × V} (h : p ∈ dictUpdate l m) : p ∈ l ∨ p ∈ m := by
  induction m generalizing l with
  | nil => exact Or.inl h
  | cons q m' ih =>
      rcases ih h with h2 | h2
      · rcases mem_setEntry h2 with h3 | h3
        · exact Or.inl h3
        · right
          rw [h3]
          exact List.mem_cons_self q m'
      · exact Or.inr (List.mem_cons_of_mem q h2)

theorem mem_keysOf_setEntry {K V : Type} [DecidableEq K] {l : List (K × V)}
    {k x : K} {v : V} (h : x ∈ keysOf (setEntry l k v)) : x ∈ keysOf l ∨ x = k := by
  obtain ⟨q, hq, hqx⟩ := List.mem_map.mp h
  rcases mem_setEntry hq with h2 | h2
  · exact Or.inl (hqx ▸ List.mem_map.mpr ⟨q, h2, rfl⟩)
  · right
    rw [← hqx, h2]

theorem keysOf_cons {K V : Type} (p : K × V) (tl : List (K × V)) :
    keysOf (p :: tl) = p.1 :: keysOf tl := rfl

theorem keysOf_append {K V : Type} (l m : List (K × V)) :
    keysOf (l ++ m) = keysOf l ++ keysOf m := by
  simp [keysOf]

theorem keysOf_setEntry_mem {K V : Type} [DecidableEq K] (l : List (K × V))
    (k : K) (v : V) (h : k ∈ keysOf l) : keysOf (setEntry l k v) = keysOf l := by
  induction l with
  | nil => simp [keysOf] at h
  | cons q tl ih =>
      obtain ⟨qk, qv⟩ := q
      by_cases hq : qk = k
      · subst hq
        simp [setEntry, keysOf]
      · have h' : k ∈ keysOf tl := by
          rw [keysOf_cons] at h
          rcases List.mem_cons.mp h with h | h
          · exact absurd h.symm hq
          · exact h
        simp only [setEntry, if_neg hq, keysOf_cons]
        rw [ih h']

theorem keysOf_setEntry_not_mem {K V : Type} [DecidableEq K] (l : List (K × V))
    (k : K) (v : V) (h : k ∉ keysOf l) : keysOf (setEntry l k v) = keysOf l ++ [k] := by
  rw [setEntry_of_not_mem l k v h]
  simp [keysOf]

theorem nodup_keysOf_setEntry {K V : Type} [DecidableEq K] (l : List (K × V))
    (k : K) (v : V) (h : (keysOf l).Nodup) : (keysOf (setEntry l k v)).Nodup := by
  by_cases hm : k ∈ keysOf l
  · rw [keysOf_setEntry_mem l k v hm]
    exact h
  · rw [keysOf_setEntry_not_mem l k v hm]
    refine List.Nodup.append h (List.nodup_singleton k) ?_
    intro a ha hb
    rw [List.mem_singleton] at hb
    exact hm (hb ▸ ha)

theorem nodup_keysOf_foldl_setEntry {K V : Type} [DecidableEq K]
    (l : List (K × V)) :
    ∀ acc : List (K × V), (keysOf acc).Nodup →
      (keysOf (l.foldl (fun a p => setEntry a p.1 p.2) acc)).Nodup := by
  induction l with
  | nil => exact fun acc h => h
  | cons p tl ih =>
      intro acc h
      exact ih _ (nodup_keysOf_setEntry acc p.1 p.2 h)

theorem nodup_keysOf_dedupFold {K V : Type} [DecidableEq K] (l : List (K × V)) :
    (keysOf (dedupFold l)).Nodup :=
  nodup_keysOf_foldl_setEntry l [] List.nodup_nil

theorem mem_keysOf_foldl_setEntry {K V : Type} [DecidableEq K]
    (l : List (K × V)) :
    ∀ (acc : List (K × V)) (x : K),
      x ∈ keysOf (l.foldl (fun a p => setEntry a p.1 p.2) acc) →
      x ∈ keysOf acc ∨ x ∈ keysOf l := by
  induction l with
  | nil => exact fun acc x h => Or.inl h
  | cons p tl ih =>
      intro acc x h
      rcases ih _ x h with h2 | h2
      · rcases mem_keysOf_setEntry h2 with h3 | h3
        · exact Or.inl h3
        · right
          rw [h3, keysOf_cons]
          exact List.mem_cons_self _ _
      · right
        rw [keysOf_cons]
        exact List.mem_cons_of_mem _ h2

theorem mem_keysOf_dedupFold {K V : Type} [DecidableEq K] {l : List (K × V)}
    {x : K} (h : x ∈ keysOf (dedupFold l)) : x ∈ keysOf l := by
  rcases mem_keysOf_foldl_setEntry l [] x h with h2 | h2
  · simp [keysOf] at h2
  · exact h2

theorem foldl_setEntry_append {K V : Type} [DecidableEq K] (l : List (K × V)) :
    ∀ acc : List (K × V), (∀ x ∈ keysOf l, x ∉ keysOf acc) → (keysOf l).Nodup →
      l.foldl (fun a p => setEntry a p.1 p.2) acc = acc ++ l := by
  induction l with
  | nil => simp
  | cons p tl ih =>
      intro acc hd h
      have hp : p.1 ∉ keysOf acc := hd p.1 (by simp [keysOf])
      have hstep : setEntry acc p.1 p.2 = acc ++ [p] := by
        rw [setEntry_of_not_mem acc p.1 p.2 hp]
      have hnd := List.nodup_cons.mp (by rw [keysOf_cons] at h; exact h)
      have hd' : ∀ x ∈ keysOf tl, x ∉ keysOf (acc ++ [p]) := by
        intro x hx hmem
        rw [keysOf_append] at hmem
        rcases List.mem_append.mp hmem with h2 | h2
        · exact hd x (by rw [keysOf_cons]; exact List.mem_cons_of_mem _ hx) h2
        · rw [show keysOf [p] = [p.1] from rfl, List.mem_singleton] at h2
          exact hnd.1 (h2 ▸ hx)
      have htl : (keysOf tl).Nodup := hnd.2
      show tl.foldl (fun a p => setEntry a p.1 p.2) (setEntry acc p.1 p.2) = acc ++ p :: tl
      rw [hstep, ih (acc ++ [p]) hd' htl]
      simp

theorem dedupFold_eq_of_nodup {K V : Type} [DecidableEq K] (l : List (K × V))
    (h : (keysOf l).Nodup) : dedupFold l = l := by
  have := foldl_setEntry_append l [] (by simp [keysOf]) h
  simpa [dedupFold] using this

theorem setEntry_ne_nil {K V : Type} [DecidableEq K] (l : List (K × V))
    (k : K) (v : V) : setEntry l k v ≠ [] := by
  cases l with
  | nil => simp [setEntry]
  | cons p tl =>
      simp only [setEntry]
      split <;> simp

theorem foldl_setEntry_ne_nil {K V : Type} [DecidableEq K] (l : List (K × V)) :
    ∀ acc : List (K × V), acc ≠ [] →
      l.foldl (fun a p => setEntry a p.1 p.2) acc ≠ [] := by
  induction l with
  | nil => exact fun acc h => h
  | cons p tl ih => exact fun acc _ => ih _ (setEntry_ne_nil acc p.1 p.2)

theorem dedupFold_ne_nil {K V : Type} [DecidableEq K] (l : List (K × V))
    (h : l ≠ []) : dedupFold l ≠ [] := by
  cases l with
  | nil => exact absurd rfl h
  | cons p tl =>
      show tl.foldl (fun a p => setEntry a p.1 p.2) (setEntry [] p.1 p.2) ≠ []
      exact foldl_setEntry_ne_nil tl _ (setEntry_ne_nil [] p.1 p.2)

theorem Store.tabs_set_self (σ : Store) (r : ℕ) (t : List (String × Assum)) :
    (σ.set r t).tabs r = t := by
  simp [Store.set]

theorem Store.tabs_set_ne (σ : Store) (r : ℕ) (t : List (String × Assum))
    (r2 : ℕ) (h : r2 ≠ r) : (σ.set r t).tabs r2 = σ.tabs r2 := by
  simp [Store.set, h]

/-- Claim C6: `a | b` on `SymbolDictionary` operands: if `a` is empty the
result carries `b`'s entries and mode and the table reachable through it
is the union of both assumption tables (`a`'s entries winning on a
colliding name, per `other_copy._assumptions.update(self._assumptions)`);
symmetrically if `b` is empty (`b`'s assumptions winning); two populated
operands of different modes raise the mode-mismatch `ValueError`; two
populated operands of equal mode merge key-wise with `b`'s values winning
on colliding keys, and the assumption tables unioned (`b`'s winning). -/
theorem symbolDictionary_or_spec {V : Type} (σ : Store) (a b : SymbolDictionary V)
    (hta : (keysOf (σ.tabs a.ref)).Nodup) (htb : (keysOf (σ.tabs b.ref)).Nodup)
    (hbe : (keysOf b.entries).Nodup) :
    (a.entries = [] → ∃ σ2 r, SymbolDictionary.or σ a b = .ok (σ2, r) ∧
      r.entries = b.entries ∧ r.is_sympy = b.is_sympy ∧
      ∀ n, lookupVal (σ2.tabs r.ref) n
        = orElseVal (lookupVal (σ.tabs a.ref) n) (lookupVal (σ.tabs b.ref) n)) ∧
    (a.entries ≠ [] → b.entries = [] →
      ∃ σ2 r, SymbolDictionary.or σ a b = .ok (σ2, r) ∧
      r.entries = a.entries ∧ r.is_sympy = a.is_sympy ∧
      ∀ n, lookupVal (σ2.tabs r.ref) n
        = orElseVal (lookupVal (σ.tabs b.ref) n) (lookupVal (σ.tabs a.ref) n)) ∧
    (a.entries ≠ [] → b.entries ≠ [] → a.is_sympy ≠ b.is_sympy →
      SymbolDictionary.or σ a b = .error .modeMismatch) ∧
    (a.entries ≠ [] → b.entries ≠ [] → a.is_sympy = b.is_sympy →
      ∃ σ2 r, SymbolDictionary.or σ a b = .ok (σ2, r) ∧
        r.is_sympy = a.is_sympy ∧ r.ref = a.ref ∧
        (∀ k, lookupVal r.entries k
          = orElseVal (lookupVal b.entries k) (lookupVal a.entries k)) ∧
        ∀ n, lookupVal (σ2.tabs r.ref) n
          = orElseVal (lookupVal (σ.tabs b.ref) n) (lookupVal (σ.tabs a.ref) n)) := by
  refine ⟨?_, ?_, ?_, ?_⟩
  · intro ha
    have he : a.entries.isEmpty = true := by
      rw [List.isEmpty_iff]
      exact ha
    refine ⟨σ.set b.ref (dictUpdate (σ.tabs b.ref) (σ.tabs a.ref)), b.copy, ?_, rfl, rfl, ?_⟩
    · simp only [SymbolDictionary.or]
      rw [if_pos he]
    · intro n
      show lookupVal ((σ.set b.ref (dictUpdate (σ.tabs b.ref) (σ.tabs a.ref))).tabs b.ref) n = _
      rw [Store.tabs_set_self]
      exact lookupVal_dictUpdate (σ.tabs b.ref) (σ.tabs a.ref) hta n
  · intro ha hb
    have hea : ¬ a.entries.isEmpty = true := by
      rw [List.isEmpty_iff]
      exact ha
    have heb : b.entries.isEmpty = true := by
      rw [List.isEmpty_iff]
      exact hb
    refine ⟨σ.set a.ref (dictUpdate (σ.tabs a.ref) (σ.tabs b.ref)), a.copy, ?_, rfl, rfl, ?_⟩
    · simp only [SymbolDictionary.or]
      rw [if_neg hea, if_pos heb]
    · intro n
      show lookupVal ((σ.set a.ref (dictUpdate (σ.tabs a.ref) (σ.tabs b.ref))).tabs a.ref) n = _
      rw [Store.tabs_set_self]
      exact lookupVal_dictUpdate (σ.tabs a.ref) (σ.tabs b.ref) htb n
  · intro ha hb hm
    have hea : ¬ a.entries.isEmpty = true := by
      rw [List.isEmpty_iff]
      exact ha
    have heb : ¬ b.entries.isEmpty = true := by
      rw [List.isEmpty_iff]
      exact hb
    have hm2 : (a.is_sympy != b.is_sympy) = true := bne_iff_ne.mpr hm
    simp only [SymbolDictionary.or]
    rw [if_neg hea, if_neg heb, if_pos hm2]
  · intro ha hb hm
    have hea : ¬ a.entries.isEmpty = true := by
      rw [List.isEmpty_iff]
      exact ha
    have heb : ¬ b.entries.isEmpty = true := by
      rw [List.isEmpty_iff]
      exact hb
    have hm2 : ¬ (a.is_sympy != b.is_sympy) = true := by
      rw [bne_iff_ne]
      intro h2
      exact h2 hm
    refine ⟨σ.set a.ref (dictUpdate (σ.tabs a.ref) (σ.tabs b.ref)),
      ⟨dictUpdate a.entries b.entries, a.is_sympy, a.ref⟩, ?_, rfl, rfl, ?_, ?_⟩
    · simp only [SymbolDictionary.or]
      rw [if_neg hea, if_neg heb, if_neg hm2]
      rfl
    · intro k
      exact lookupVal_dictUpdate a.entries b.entries hbe k
    · intro n
      show lookupVal ((σ.set a.ref (dictUpdate (σ.tabs a.ref) (σ.tabs b.ref))).tabs a.ref) n = _
      rw [Store.tabs_set_self]
      exact lookupVal_dictUpdate (σ.tabs a.ref) (σ.tabs b.ref) htb n

/-- Witness for `symbolDictionary_or_spec`: two concrete populated
string-mode dictionaries with aliased-store tables. -/
theorem symbolDictionary_or_spec_witness :
    ∃ σ2 r, SymbolDictionary.or
        (⟨fun i => if i = 0 then [("x", [("positive", true)])] else
            if i = 1 then [("y", [("real", true)])] else [], 2⟩ : Store)
        (⟨[(.str "x", (1 : ℤ))], false, 0⟩ : SymbolDictionary ℤ)
        (⟨[(.str "y", (2 : ℤ))], false, 1⟩ : SymbolDictionary ℤ) = .ok (σ2, r) ∧
      r.is_sympy = false ∧ r.ref = 0 ∧
      (∀ k, lookupVal r.entries k
        = orElseVal (lookupVal [((DKey.str "y"), (2 : ℤ))] k)
            (lookupVal [((DKey.str "x"), (1 : ℤ))] k)) ∧
      ∀ n, lookupVal (σ2.tabs r.ref) n
        = orElseVal (lookupVal [("y", [("real", true)])] n)
            (lookupVal [("x", [("positive", true)])] n) :=
  (symbolDictionary_or_spec
    (⟨fun i => if i = 0 then [("x", [("positive", true)])] else
        if i = 1 then [("y", [("real", true)])] else [], 2⟩ : Store)
    (⟨[(.str "x", (1 : ℤ))], false, 0⟩ : SymbolDictionary ℤ)
    (⟨[(.str "y", (2 : ℤ))], false, 1⟩ : SymbolDictionary ℤ)
    (by decide) (by decide) (by decide)).2.2.2
    (by decide) (by decide) (by decide)

/-- Claim C10: `copy()` aliases the `_assumptions` side table (the copy
holds the same reference while duplicating the entry list), and
consequently a successful `a | b` with populated `a` mutates the table
behind `a`'s reference in place, updating it with `b`'s assumptions, while
`a`'s entries are untouched. -/
theorem symbolDictionary_copy_aliasing {V : Type} (σ : Store)
    (a b : SymbolDictionary V) (ha : a.entries ≠ []) (σ2 : Store)
    (r : SymbolDictionary V)
    (hok : SymbolDictionary.or σ a b = .ok (σ2, r)) :
    a.copy.ref = a.ref ∧ a.copy.entries = a.entries ∧
    a.copy.is_sympy = a.is_sympy ∧
    σ2.tabs a.ref = dictUpdate (σ.tabs a.ref) (σ.tabs b.ref) := by
  refine ⟨rfl, rfl, rfl, ?_⟩
  have hea : ¬ a.entries.isEmpty = true := by
    rw [List.isEmpty_iff]
    exact ha
  simp only [SymbolDictionary.or] at hok
  rw [if_neg hea] at hok
  by_cases heb : b.entries.isEmpty = true
  · rw [if_pos heb] at hok
    injection hok with hpair
    have hσ : σ.set a.ref (dictUpdate (σ.tabs a.ref) (σ.tabs b.ref)) = σ2 :=
      congrArg Prod.fst hpair
    rw [← hσ, Store.tabs_set_self]
  · rw [if_neg heb] at hok
    by_cases hm : (a.is_sympy != b.is_sympy) = true
    · rw [if_pos hm] at hok
      exact absurd hok (by simp)
    · rw [if_neg hm] at hok
      injection hok with hpair
      have hσ : σ.set a.ref (dictUpdate (σ.tabs a.ref) (σ.tabs b.ref)) = σ2 :=
        congrArg Prod.fst hpair
      rw [← hσ, Store.tabs_set_self]

/-- Witness for `symbolDictionary_copy_aliasing`: merging two concrete
populated dictionaries overwrites the table behind `a.ref = 0` with the
union of both tables. -/
theorem symbolDictionary_copy_aliasing_witness :
    ((⟨[(.str "x", (1 : ℤ))], false, 0⟩ : SymbolDictionary ℤ).copy).ref = 0 ∧
    ((⟨[(.str "x", (1 : ℤ))], false, 0⟩ : SymbolDictionary ℤ).copy).entries
      = [(.str "x", (1 : ℤ))] ∧
    ((⟨[(.str "x", (1 : ℤ))], false, 0⟩ : SymbolDictionary ℤ).copy).is_sympy = false ∧
    ((⟨fun i => if i = 0 then [("x", [("positive", true)])] else
          if i = 1 then [("y", [("real", true)])] else [], 2⟩ : Store).set 0
        (dictUpdate [("x", [("positive", true)])] [("y", [("real", true)])])).tabs 0
      = dictUpdate [("x", [("positive", true)])] [("y", [("real", true)])] :=
  symbolDictionary_copy_aliasing
    (⟨fun i => if i = 0 then [("x", [("positive", true)])] else
        if i = 1 then [("y", [("real", true)])] else [], 2⟩ : Store)
    (⟨[(.str "x", (1 : ℤ))], false, 0⟩ : SymbolDictionary ℤ)
    (⟨[(.str "y", (2 : ℤ))], false, 1⟩ : SymbolDictionary ℤ)
    (by decide) _ _ rfl

/-- Characterization of a successful `__init__`: the dictionary holds
exactly the given entries, and every key's mode agrees with the mode
derived from the first key. -/
theorem init_modeOk {V : Type} (entries : List (DKey × V)) (σ σ2 : Store)
    (d : SymbolDictionary V)
    (h : SymbolDictionary.init entries σ = .ok (σ2, d)) :
    d.entries = entries ∧ ModeOk d := by
  simp only [SymbolDictionary.init] at h
  split at h
  · exact absurd h (by simp)
  · split at h
    · exact absurd h (by simp)
    · rename_i hC1 hC2
      injection h with hpair
      have hd := congrArg Prod.snd hpair
      subst hd
      refine ⟨rfl, ?_⟩
      intro p hp
      show p.1.isSym = (match keysOf entries with
        | [] => false
        | k :: _ => k.isSym)
      cases hflag : (match keysOf entries with
        | [] => false
        | k :: _ => DKey.isSym k) with
      | true =>
          by_contra hne
          have hpf : p.1.isSym = false := by
            cases hb : p.1.isSym
            · rfl
            · exact absurd hb hne
          have hany : ((keysOf entries).any fun k => !k.isSym) = true :=
            List.any_eq_true.mpr ⟨p.1, List.mem_map.mpr ⟨p, hp, rfl⟩, by rw [hpf]; rfl⟩
          rw [hflag] at hC1
          exact hC1 (by rw [hany]; rfl)
      | false =>
          by_contra hne
          have hpt : p.1.isSym = true := by
            cases hb : p.1.isSym
            · exact absurd hb hne
            · rfl
          have hany : ((keysOf entries).any fun k => k.isSym) = true :=
            List.any_eq_true.mpr ⟨p.1, List.mem_map.mpr ⟨p, hp, rfl⟩, hpt⟩
          rw [hflag] at hC2
          exact hC2 (by rw [hany]; rfl)

theorem except_bind_ok {E A B : Type} (x : A) (f : A → Except E B) :
    (Except.ok x).bind f = f x := rfl

theorem except_bind_error {E A B : Type} (e : E) (f : A → Except E B) :
    (Except.error e : Except E A).bind f = .error e := rfl

/-- `to_string` output satisfies the single-mode invariant. -/
theorem to_string_modeOk {V : Type} (c : SymCodec) (σ : Store)
    (d : SymbolDictionary V) (σ2 : Store) (d2 : SymbolDictionary V)
    (h : SymbolDictionary.to_string c σ d = .ok (σ2, d2)) : ModeOk d2 := by
  unfold SymbolDictionary.to_string at h
  cases hI : SymbolDictionary.init
      (dedupFold (d.entries.map fun p => (demoteKey c p.1, p.2))) σ with
  | error e =>
      rw [hI, except_bind_error] at h
      exact absurd h (by simp)
  | ok q =>
      rw [hI, except_bind_ok] at h
      injection h with hpair
      have hd := congrArg Prod.snd hpair
      subst hd
      exact (init_modeOk _ σ q.1 q.2 hI).2

/-- `to_sympy` output satisfies the single-mode invariant. -/
theorem to_sympy_modeOk {V : Type} (c : SymCodec) (σ : Store)
    (d : SymbolDictionary V) (σ2 : Store) (d2 : SymbolDictionary V)
    (h : SymbolDictionary.to_sympy c σ d = .ok (σ2, d2)) : ModeOk d2 := by
  unfold SymbolDictionary.to_sympy at h
  exact (init_modeOk _ _ _ _ h).2

/-- `_step_dict_keys` output satisfies the single-mode invariant. -/
theorem step_dict_keys_modeOk {V : Type} (c : SymCodec)
    (f : TASymbol → TASymbol) (σ : Store) (d : SymbolDictionary V)
    (σ2 : Store) (d2 : SymbolDictionary V)
    (h : SymbolDictionary.step_dict_keys c f σ d = .ok (σ2, d2)) : ModeOk d2 := by
  unfold SymbolDictionary.step_dict_keys at h
  by_cases hsy : d.is_sympy = true
  · rw [if_pos hsy] at h
    exact (init_modeOk _ _ _ _ h).2
  · rw [if_neg hsy] at h
    cases hA : SymbolDictionary.to_sympy_inplace c σ d.copy with
    | error e =>
        rw [hA, except_bind_error] at h
        exact absurd h (by simp)
    | ok q =>
        rw [hA, except_bind_ok] at h
        cases hB : SymbolDictionary.init
            (dedupFold (q.2.entries.map fun p => (stepDKey f p.1, p.2))) q.1 with
        | error e =>
            rw [hB, except_bind_error] at h
            exact absurd h (by simp)
        | ok p2 =>
            rw [hB, except_bind_ok] at h
            unfold SymbolDictionary.to_string_inplace at h
            cases hC : SymbolDictionary.to_string c p2.1 p2.2 with
            | error e =>
                rw [hC, except_bind_error] at h
                exact absurd h (by simp)
            | ok p3 =>
                rw [hC, except_bind_ok] at h
                injection h with hpair
                have hd := congrArg Prod.snd hpair
                subst hd
                intro p hp
                exact to_string_modeOk c p2.1 p2.2 p3.1 p3.2 (by rw [hC]) p hp

/-- Claim C8: a `SymbolDictionary` never holds mixed-mode keys.  The
constructor rejects an entry list containing both a symbol key and a
string key with `KeyError`; inserting a key of the other mode into a
populated dictionary raises `KeyError`; and the single-mode invariant
`ModeOk` (every key's mode equals the `is_sympy` flag) holds for every
constructor output and is preserved by `__setitem__`, `__or__`, `copy`,
the bulk time-shift operations and the mode conversions. -/
theorem symbolDictionary_single_mode {V : Type} :
    (∀ (entries : List (DKey × V)) (σ : Store) (p q : DKey × V),
      p ∈ entries → q ∈ entries → p.1.isSym = true → q.1.isSym = false →
      SymbolDictionary.init entries σ = .error .keyTypeError) ∧
    (∀ (entries : List (DKey × V)) (σ σ2 : Store) (d : SymbolDictionary V),
      SymbolDictionary.init entries σ = .ok (σ2, d) → ModeOk d) ∧
    (∀ (σ : Store) (d : SymbolDictionary V) (k : DKey) (v : V),
      d.entries ≠ [] → d.is_sympy ≠ k.isSym →
      SymbolDictionary.setitem σ d k v = .error .keyTypeError) ∧
    (∀ (σ : Store) (d : SymbolDictionary V) (k : DKey) (v : V) (σ2 : Store)
      (d2 : SymbolDictionary V), ModeOk d →
      SymbolDictionary.setitem σ d k v = .ok (σ2, d2) → ModeOk d2) ∧
    (∀ (σ : Store) (a b : SymbolDictionary V) (σ2 : Store)
      (r : SymbolDictionary V), ModeOk a → ModeOk b →
      SymbolDictionary.or σ a b = .ok (σ2, r) → ModeOk r) ∧
    (∀ d : SymbolDictionary V, ModeOk d → ModeOk d.copy) ∧
    (∀ (c : SymCodec) (f : TASymbol → TASymbol) (σ : Store)
      (d : SymbolDictionary V) (σ2 : Store) (d2 : SymbolDictionary V),
      SymbolDictionary.step_dict_keys c f σ d = .ok (σ2, d2) → ModeOk d2) ∧
    (∀ (c : SymCodec) (σ : Store) (d : SymbolDictionary V) (σ2 : Store)
      (d2 : SymbolDictionary V),
      SymbolDictionary.to_sympy c σ d = .ok (σ2, d2) → ModeOk d2) ∧
    (∀ (c : SymCodec) (σ : Store) (d : SymbolDictionary V) (σ2 : Store)
      (d2 : SymbolDictionary V),
      SymbolDictionary.to_string c σ d = .ok (σ2, d2) → ModeOk d2) := by
  refine ⟨?_, ?_, ?_, ?_, ?_, ?_, ?_, ?_, ?_⟩
  · intro entries σ p q hp hq hps hqs
    simp only [SymbolDictionary.init]
    cases hflag : (match keysOf entries with
      | [] => false
      | k :: _ => DKey.isSym k) with
    | true =>
        have hany : ((keysOf entries).any fun k => !k.isSym) = true :=
          List.any_eq_true.mpr ⟨q.1, List.mem_map.mpr ⟨q, hq, rfl⟩, by rw [hqs]; rfl⟩
        simp [hany]
    | false =>
        have hany : ((keysOf entries).any fun k => k.isSym) = true :=
          List.any_eq_true.mpr ⟨p.1, List.mem_map.mpr ⟨p, hp, rfl⟩, hps⟩
        simp [hany]
  · intro entries σ σ2 d h
    exact (init_modeOk entries σ σ2 d h).2
  · intro σ d k v hne hmode
    have hemp : ¬ d.entries.isEmpty = true := by
      rw [List.isEmpty_iff]
      exact hne
    cases k with
    | sym sk =>
        have hsy : d.is_sympy = false := by
          cases hb : d.is_sympy
          · rfl
          · exact absurd (hb.trans rfl) hmode
        simp only [SymbolDictionary.setitem]
        rw [if_neg hemp, if_neg (c := (d.is_sympy && !(DKey.sym sk).isSym) = true)
          (by rw [hsy]; simp), if_pos (by rw [hsy]; simp [DKey.isSym])]
    | str s0 =>
        have hsy : d.is_sympy = true := by
          cases hb : d.is_sympy
          · exact absurd (hb.trans rfl) hmode
          · rfl
        simp only [SymbolDictionary.setitem]
        rw [if_neg hemp, if_pos (by rw [hsy]; simp [DKey.isSym])]
  · intro σ d k v σ2 d2 hM h
    cases k with
    | sym sk =>
        simp only [SymbolDictionary.setitem] at h
        split at h
        · rename_i hemp
          injection h with hpair
          have hd := congrArg Prod.snd hpair
          subst hd
          intro p hp
          rcases mem_setEntry hp with h2 | h2
          · exact absurd h2 (by rw [List.isEmpty_iff.mp hemp]; exact List.not_mem_nil p)
          · rw [h2]
            rfl
        · split at h
          · exact absurd h (by simp)
          · split at h
            · exact absurd h (by simp)
            · rename_i hemp h1 h2
              have hsy : d.is_sympy = true := by
                cases hb : d.is_sympy
                · exact absurd (by rw [hb]; rfl) h2
                · rfl
              injection h with hpair
              have hd := congrArg Prod.snd hpair
              subst hd
              intro p hp
              rcases mem_setEntry hp with h3 | h3
              · exact hM p h3
              · rw [h3, hsy]
                rfl
    | str s0 =>
        simp only [SymbolDictionary.setitem] at h
        split at h
        · rename_i hemp
          injection h with hpair
          have hd := congrArg Prod.snd hpair
          subst hd
          intro p hp
          rcases mem_setEntry hp with h2 | h2
          · exact absurd h2 (by rw [List.isEmpty_iff.mp hemp]; exact List.not_mem_nil p)
          · rw [h2]
            rfl
        · split at h
          · exact absurd h (by simp)
          · split at h
            · exact absurd h (by simp)
            · rename_i hemp h1 h2
              have hsy : d.is_sympy = false := by
                cases hb : d.is_sympy
                · rfl
                · exact absurd (by rw [hb]; rfl) h1
              injection h with hpair
              have hd := congrArg Prod.snd hpair
              subst hd
              intro p hp
              rcases mem_setEntry hp with h3 | h3
              · exact hM p h3
              · rw [h3, hsy]
                rfl
  · intro σ a b σ2 r hMa hMb h
    simp only [SymbolDictionary.or] at h
    split at h
    · injection h with hpair
      have hd := congrArg Prod.snd hpair
      subst hd
      exact hMb
    · split at h
      · injection h with hpair
        have hd := congrArg Prod.snd hpair
        subst hd
        exact hMa
      · split at h
        · exact absurd h (by simp)
        · rename_i hea heb hm
          have hbs : b.is_sympy = a.is_sympy := by
            cases ha2 : a.is_sympy <;> cases hb2 : b.is_sympy
            · rfl
            · exfalso
              apply hm
              rw [ha2, hb2]
              rfl
            · exfalso
              apply hm
              rw [ha2, hb2]
              rfl
            · rfl
          injection h with hpair
          have hd := congrArg Prod.snd hpair
          subst hd
          intro p hp
          show p.1.isSym = a.is_sympy
          rcases mem_dictUpdate hp with h2 | h2
          · exact hMa p h2
          · rw [hMb p h2]
            exact hbs
  · intro d h p hp
    exact h p hp
  · intro c f σ d σ2 d2 h
    exact step_dict_keys_modeOk c f σ d σ2 d2 h
  · intro c σ d σ2 d2 h
    exact to_sympy_modeOk c σ d σ2 d2 h
  · intro c σ d σ2 d2 h
    exact to_string_modeOk c σ d σ2 d2 h

theorem Store.tabs_alloc_self (σ : Store) (t : List (String × Assum)) :
    ((σ.alloc t).1).tabs σ.next = t := by
  simp [Store.alloc]

/-- A successful sympy-mode `__init__`: uniformly symbol keys give mode
`true` and the table rebuilt from the keys. -/
theorem init_ok_of_sym {V : Type} (entries : List (DKey × V)) (σ : Store)
    (hne : entries ≠ []) (hall : ∀ p ∈ entries, p.1.isSym = true) :
    SymbolDictionary.init entries σ
      = .ok ((σ.alloc (saveAssumTable (keysOf entries) [])).1,
          ⟨entries, true, σ.next⟩) := by
  cases entries with
  | nil => exact absurd rfl hne
  | cons e es =>
      have he : e.1.isSym = true := hall e (List.mem_cons_self e es)
      have hflag : (match keysOf (e :: es) with
          | [] => false
          | k :: _ => DKey.isSym k) = true := by
        rw [keysOf_cons]
        exact he
      have hany : ((keysOf (e :: es)).any fun k => !k.isSym) = false := by
        rw [List.any_eq_false]
        intro k hk
        obtain ⟨p, hp, hpk⟩ := List.mem_map.mp hk
        rw [← hpk, hall p hp]
        simp
      simp [SymbolDictionary.init, hflag, hany, Store.alloc]

/-- A successful string-mode `__init__`: uniformly string keys (or an
empty entry list) give mode `false` and an empty table. -/
theorem init_ok_of_str {V : Type} (entries : List (DKey × V)) (σ : Store)
    (hall : ∀ p ∈ entries, p.1.isSym = false) :
    SymbolDictionary.init entries σ
      = .ok ((σ.alloc []).1, ⟨entries, false, σ.next⟩) := by
  cases entries with
  | nil => rfl
  | cons e es =>
      have he : e.1.isSym = false := hall e (List.mem_cons_self e es)
      have hflag : (match keysOf (e :: es) with
          | [] => false
          | k :: _ => DKey.isSym k) = false := by
        rw [keysOf_cons]
        exact he
      have hany : ((keysOf (e :: es)).any fun k => k.isSym) = false := by
        rw [List.any_eq_false]
        intro k hk
        obtain ⟨p, hp, hpk⟩ := List.mem_map.mp hk
        rw [← hpk, hall p hp]
        simp
      simp [SymbolDictionary.init, hflag, hany, Store.alloc]

theorem promoteKey_isSym (c : SymCodec) (t : List (String × Assum)) (k : DKey) :
    (promoteKey c t k).isSym = true := by
  cases k <;> rfl

theorem demoteKey_isSym (c : SymCodec) (k : DKey) :
    (demoteKey c k).isSym = false := by
  cases k <;> rfl

theorem eq_str_of_isSym_false {k : DKey} (h : k.isSym = false) :
    ∃ s, k = .str s := by
  cases k with
  | str s => exact ⟨s, rfl⟩
  | sym sk => exact absurd h (by simp [DKey.isSym])

/-- Claim C7, amended: for every non-empty well-formed string-mode
dictionary, `to_sympy().to_string()` reproduces the entries (same keys and
values, in order) and returns a string-mode dictionary; but its assumption
side-table is not the original one: it is rebuilt by the `to_sympy`
constructor with exactly one record per promoted key (so the round trip
preserves the table only when it already has exactly that form, as tables
produced by `to_string` do). -/
theorem to_string_ok {V : Type} (c : SymCodec) (σ : Store)
    (d : SymbolDictionary V)
    (hnd : (keysOf (d.entries.map fun p => (demoteKey c p.1, p.2))).Nodup) :
    SymbolDictionary.to_string c σ d
      = .ok (((σ.alloc []).1).set σ.next (σ.tabs d.ref),
          ⟨d.entries.map fun p => (demoteKey c p.1, p.2), false, σ.next⟩) := by
  have hall : ∀ p ∈ d.entries.map fun p => (demoteKey c p.1, p.2),
      p.1.isSym = false := by
    intro p hp
    obtain ⟨q, _, hq⟩ := List.mem_map.mp hp
    rw [← hq]
    exact demoteKey_isSym c q.1
  unfold SymbolDictionary.to_string
  rw [dedupFold_eq_of_nodup _ hnd, init_ok_of_str _ _ hall, except_bind_ok]

theorem to_sympy_to_string_roundtrip {V : Type} (c : SymCodec) (σ : Store)
    (d : SymbolDictionary V)
    (hmode : ∀ p ∈ d.entries, p.1.isSym = false) (hne : d.entries ≠ [])
    (hnd : (keysOf d.entries).Nodup) :
    ∃ σ1 d1 σ2 d2,
      SymbolDictionary.to_sympy c σ d = .ok (σ1, d1) ∧
      SymbolDictionary.to_string c σ1 d1 = .ok (σ2, d2) ∧
      d2.entries = d.entries ∧ d2.is_sympy = false ∧
      σ2.tabs d2.ref
        = saveAssumTable (d.entries.map fun p => promoteKey c (σ.tabs d.ref) p.1)
            [] := by
  have hplkeys : ∀ p ∈ d.entries.map
      (fun p => (promoteKey c (σ.tabs d.ref) p.1, p.2)), p.1.isSym = true := by
    intro p hp
    obtain ⟨q, _, hq⟩ := List.mem_map.mp hp
    rw [← hq]
    exact promoteKey_isSym c _ q.1
  have hkeys_pl : keysOf (d.entries.map
        (fun p => (promoteKey c (σ.tabs d.ref) p.1, p.2)))
      = d.entries.map fun p => promoteKey c (σ.tabs d.ref) p.1 := by
    simp [keysOf, List.map_map]
  have hinj : ∀ x ∈ d.entries, ∀ y ∈ d.entries,
      promoteKey c (σ.tabs d.ref) x.1 = promoteKey c (σ.tabs d.ref) y.1 →
      x.1 = y.1 := by
    intro x hx y hy hxy
    obtain ⟨sx, hsx⟩ := eq_str_of_isSym_false (hmode x hx)
    obtain ⟨sy, hsy⟩ := eq_str_of_isSym_false (hmode y hy)
    rw [hsx, hsy] at hxy ⊢
    have h2 : c.toSym sx (σ.tabs d.ref) = c.toSym sy (σ.tabs d.ref) :=
      DKey.sym.inj hxy
    have h3 := congrArg c.toStr h2
    rw [c.toStr_toSym, c.toStr_toSym] at h3
    rw [h3]
  have hplnodup : (keysOf (d.entries.map
      (fun p => (promoteKey c (σ.tabs d.ref) p.1, p.2)))).Nodup := by
    rw [hkeys_pl]
    have hnd2 : (d.entries.map fun p => promoteKey c (σ.tabs d.ref) p.1)
        = (keysOf d.entries).map (promoteKey c (σ.tabs d.ref)) := by
      simp [keysOf, List.map_map]
    rw [hnd2]
    refine List.Nodup.map_on ?_ hnd
    intro a ha b hb hab
    obtain ⟨x, hx, hxa⟩ := List.mem_map.mp ha
    obtain ⟨y, hy, hyb⟩ := List.mem_map.mp hb
    rw [← hxa, ← hyb] at hab ⊢
    exact hinj x hx y hy hab
  have hdedup : dedupFold (d.entries.map
        (fun p => (promoteKey c (σ.tabs d.ref) p.1, p.2)))
      = d.entries.map (fun p => (promoteKey c (σ.tabs d.ref) p.1, p.2)) :=
    dedupFold_eq_of_nodup _ hplnodup
  have hplne : d.entries.map
      (fun p => (promoteKey c (σ.tabs d.ref) p.1, p.2)) ≠ [] := by
    intro h2
    exact hne (List.map_eq_nil_iff.mp h2)
  have h1 : SymbolDictionary.to_sympy c σ d
      = .ok ((σ.alloc (saveAssumTable (keysOf (d.entries.map
            (fun p => (promoteKey c (σ.tabs d.ref) p.1, p.2)))) [])).1,
          ⟨d.entries.map (fun p => (promoteKey c (σ.tabs d.ref) p.1, p.2)),
            true, σ.next⟩) := by
    unfold SymbolDictionary.to_sympy
    rw [hdedup]
    exact init_ok_of_sym _ σ hplne hplkeys
  have hdem : (d.entries.map
        (fun p => (promoteKey c (σ.tabs d.ref) p.1, p.2))).map
      (fun p => (demoteKey c p.1, p.2)) = d.entries := by
    rw [List.map_map]
    have h2 : ∀ p ∈ d.entries,
        ((fun p => (demoteKey c p.1, p.2)) ∘
          fun p => (promoteKey c (σ.tabs d.ref) p.1, p.2)) p = id p := by
      intro p hp
      obtain ⟨sp, hsp⟩ := eq_str_of_isSym_false (hmode p hp)
      obtain ⟨pk, pv⟩ := p
      simp only [Function.comp, id]
      rw [show pk = DKey.str sp from hsp]
      simp [promoteKey, demoteKey, c.toStr_toSym]
    rw [List.map_congr_left h2, List.map_id]
  have hndd : (keysOf (((⟨d.entries.map
        (fun p => (promoteKey c (σ.tabs d.ref) p.1, p.2)), true, σ.next⟩ :
      SymbolDictionary V)).entries.map fun p => (demoteKey c p.1, p.2))).Nodup := by
    show (keysOf ((d.entries.map
        (fun p => (promoteKey c (σ.tabs d.ref) p.1, p.2))).map
      fun p => (demoteKey c p.1, p.2))).Nodup
    rw [hdem]
    exact hnd
  have h2 := to_string_ok c
    (σ.alloc (saveAssumTable (keysOf (d.entries.map
        (fun p => (promoteKey c (σ.tabs d.ref) p.1, p.2)))) [])).1
    ⟨d.entries.map (fun p => (promoteKey c (σ.tabs d.ref) p.1, p.2)),
      true, σ.next⟩ hndd
  refine ⟨_, _, _, _, h1, h2, ?_, rfl, ?_⟩
  · show (d.entries.map
        (fun p => (promoteKey c (σ.tabs d.ref) p.1, p.2))).map
      (fun p => (demoteKey c p.1, p.2)) = d.entries
    exact hdem
  · simp only [Store.tabs_set_self, Store.tabs_alloc_self, hkeys_pl]

/-- Claim C7 counterexample: the fresh string-mode dictionary
`{"x": 1}` has an empty assumption side-table, but after
`to_sympy().to_string()` the table holds the default assumptions the
promotion attached to `x` — the entries round-trip, the side-table does
not. -/
theorem to_sympy_to_string_counterexample : ¬ ToSympyToStringClaim := by
  intro h
  obtain ⟨σ1, d1, σ2, d2, h1, h2, h3, h4⟩ :=
    h ⟨fun _ => [], 1⟩ ⟨[(.str "x", 1)], false, 0⟩ rfl (by decide) (by decide)
      (by decide) (by decide)
  have e1 : SymbolDictionary.to_sympy plainCodec ⟨fun _ => [], 1⟩
      ⟨[(.str "x", 1)], false, 0⟩
      = .ok ((Store.alloc ⟨fun _ => [], 1⟩ [("x", defaultAssum)]).1,
          ⟨[(.sym (.plain "x" defaultAssum), (1 : ℤ))], true, 1⟩) := rfl
  have hp1 := h1.symm.trans e1
  injection hp1 with hpair1
  have hσ1 := congrArg Prod.fst hpair1
  have hd1 := congrArg Prod.snd hpair1
  subst hσ1
  subst hd1
  have e2 : SymbolDictionary.to_string plainCodec
      (Store.alloc ⟨fun _ => [], 1⟩ [("x", defaultAssum)]).1
      ⟨[(.sym (.plain "x" defaultAssum), (1 : ℤ))], true, 1⟩
      = .ok ((((Store.alloc ⟨fun _ => [], 1⟩ [("x", defaultAssum)]).1.alloc
            []).1).set 2 [("x", defaultAssum)],
          ⟨[(.str "x", (1 : ℤ))], false, 2⟩) := rfl
  have hp2 := h2.symm.trans e2
  injection hp2 with hpair2
  have hσ2 := congrArg Prod.fst hpair2
  have hd2 := congrArg Prod.snd hpair2
  subst hσ2
  subst hd2
  exact absurd h4 (by decide)

/-- Witness for `to_sympy_to_string_roundtrip` at the concrete dictionary
`{"x": 1}` with the spec-modelled conversion. -/
theorem to_sympy_to_string_roundtrip_witness :
    ∃ σ1 d1 σ2 d2,
      SymbolDictionary.to_sympy plainCodec (⟨fun _ => [], 1⟩ : Store)
          (⟨[(.str "x", (1 : ℤ))], false, 0⟩ : SymbolDictionary ℤ)
        = .ok (σ1, d1) ∧
      SymbolDictionary.to_string plainCodec σ1 d1 = .ok (σ2, d2) ∧
      d2.entries = [(.str "x", (1 : ℤ))] ∧ d2.is_sympy = false ∧
      σ2.tabs d2.ref
        = saveAssumTable ([(.str "x", (1 : ℤ))].map fun p =>
            promoteKey plainCodec ((⟨fun _ => [], 1⟩ : Store).tabs 0) p.1) [] :=
  to_sympy_to_string_roundtrip plainCodec (⟨fun _ => [], 1⟩ : Store)
    (⟨[(.str "x", (1 : ℤ))], false, 0⟩ : SymbolDictionary ℤ)
    (by decide) (by decide) (by decide)

theorem ta_step_backward_forward (x : TASymbol) :
    x.step_backward.step_forward = x := by
  obtain ⟨b, ti, a⟩ := x
  cases ti with
  | idx k =>
      simp [TASymbol.step_backward, TASymbol.step_forward]
  | ss => rfl

theorem ta_to_ss_idem (x : TASymbol) : x.to_ss.to_ss = x.to_ss := rfl

theorem stepDKey_isSym (f : TASymbol → TASymbol) (k : DKey) :
    (stepDKey f k).isSym = k.isSym := by
  cases k <;> rfl

theorem stepSymKey_backward_forward (k : SymKey) :
    stepSymKey TASymbol.step_forward (stepSymKey TASymbol.step_backward k) = k := by
  cases k with
  | plain n a => rfl
  | ta t =>
      show SymKey.ta t.step_backward.step_forward = SymKey.ta t
      rw [ta_step_backward_forward]

theorem stepSymKey_ss_idem (k : SymKey) :
    stepSymKey TASymbol.to_ss (stepSymKey TASymbol.to_ss k)
      = stepSymKey TASymbol.to_ss k := by
  cases k <;> rfl

theorem mem_of_mem_dedupFold {K V : Type} [DecidableEq K] {l : List (K × V)}
    {p : K × V} (h : p ∈ dedupFold l) : p ∈ l := by
  rcases mem_dictUpdate h with h2 | h2
  · exact absurd h2 (List.not_mem_nil p)
  · exact h2

/-- The demoted name of a stepped promoted key does not depend on which
assumption table the promotion consulted (derived from the codec laws). -/
theorem toStr_step_indep (c : SymCodec) (s : String)
    (t t2 : List (String × Assum)) (f : TASymbol → TASymbol) :
    c.toStr (stepSymKey f (c.toSym s t)) = c.toStr (stepSymKey f (c.toSym s t2)) := by
  have h := congrArg c.toStr (c.toSym_step s t t2 f)
  rw [c.toStr_toSym] at h
  exact h

/-- Promotion of a duplicate-free string-keyed entry list has
duplicate-free keys. -/
theorem nodup_promoted_keys {V : Type} (c : SymCodec)
    (t : List (String × Assum)) (l : List (DKey × V))
    (hmode : ∀ p ∈ l, p.1.isSym = false) (hnd : (keysOf l).Nodup) :
    (keysOf (l.map fun p => (promoteKey c t p.1, p.2))).Nodup := by
  have hkeys : keysOf (l.map fun p => (promoteKey c t p.1, p.2))
      = (keysOf l).map (promoteKey c t) := by
    simp [keysOf, List.map_map]
  rw [hkeys]
  refine List.Nodup.map_on ?_ hnd
  intro a ha b hb hab
  obtain ⟨x, hx, hxa⟩ := List.mem_map.mp ha
  obtain ⟨y, hy, hyb⟩ := List.mem_map.mp hb
  obtain ⟨sx, hsx⟩ := eq_str_of_isSym_false (hxa ▸ hmode x hx)
  obtain ⟨sy, hsy⟩ := eq_str_of_isSym_false (hyb ▸ hmode y hy)
  rw [hsx, hsy] at hab ⊢
  have h2 : c.toSym sx t = c.toSym sy t := DKey.sym.inj hab
  have h3 := congrArg c.toStr h2
  rw [c.toStr_toSym, c.toStr_toSym] at h3
  rw [h3]

/-- `to_string` on an arbitrary dictionary: demote the keys through a
fresh Python dict (deduplicating), then copy the table. -/
theorem to_string_ok_general {V : Type} (c : SymCodec) (σ : Store)
    (d : SymbolDictionary V) :
    SymbolDictionary.to_string c σ d
      = .ok (((σ.alloc []).1).set σ.next (σ.tabs d.ref),
          ⟨dedupFold (d.entries.map fun p => (demoteKey c p.1, p.2)),
            false, σ.next⟩) := by
  have hall : ∀ p ∈ dedupFold (d.entries.map fun p => (demoteKey c p.1, p.2)),
      p.1.isSym = false := by
    intro p hp
    obtain ⟨q, _, hq⟩ := List.mem_map.mp (mem_of_mem_dedupFold hp)
    rw [← hq]
    exact demoteKey_isSym c q.1
  unfold SymbolDictionary.to_string
  rw [init_ok_of_str _ _ hall, except_bind_ok]

/-- `to_sympy` on a non-empty duplicate-free string-mode dictionary. -/
theorem to_sympy_ok {V : Type} (c : SymCodec) (σ : Store)
    (d : SymbolDictionary V)
    (hmode : ∀ p ∈ d.entries, p.1.isSym = false) (hne : d.entries ≠ [])
    (hnd : (keysOf d.entries).Nodup) :
    SymbolDictionary.to_sympy c σ d
      = .ok ((σ.alloc (saveAssumTable (keysOf (d.entries.map
            (fun p => (promoteKey c (σ.tabs d.ref) p.1, p.2)))) [])).1,
          ⟨d.entries.map (fun p => (promoteKey c (σ.tabs d.ref) p.1, p.2)),
            true, σ.next⟩) := by
  have hplkeys : ∀ p ∈ d.entries.map
      (fun p => (promoteKey c (σ.tabs d.ref) p.1, p.2)), p.1.isSym = true := by
    intro p hp
    obtain ⟨q, _, hq⟩ := List.mem_map.mp hp
    rw [← hq]
    exact promoteKey_isSym c _ q.1
  have hplne : d.entries.map
      (fun p => (promoteKey c (σ.tabs d.ref) p.1, p.2)) ≠ [] := by
    intro h2
    exact hne (List.map_eq_nil_iff.mp h2)
  unfold SymbolDictionary.to_sympy
  rw [dedupFold_eq_of_nodup _ (nodup_promoted_keys c _ _ hmode hnd)]
  exact init_ok_of_sym _ σ hplne hplkeys

/-- Characterization of `_step_dict_keys` on a non-empty sympy-mode
dictionary: the result is the fresh dictionary built from the stepped
keys (later duplicates winning), in sympy mode. -/
theorem step_dict_keys_sym_ok {V : Type} (c : SymCodec)
    (f : TASymbol → TASymbol) (σ : Store) (d : SymbolDictionary V)
    (hsy : d.is_sympy = true) (hall : ∀ p ∈ d.entries, p.1.isSym = true)
    (hne : d.entries ≠ []) :
    SymbolDictionary.step_dict_keys c f σ d
      = .ok ((σ.alloc (saveAssumTable (keysOf (dedupFold
            (d.entries.map fun p => (stepDKey f p.1, p.2)))) [])).1,
          ⟨dedupFold (d.entries.map fun p => (stepDKey f p.1, p.2)),
            true, σ.next⟩) := by
  have hallstep : ∀ p ∈ dedupFold (d.entries.map fun p => (stepDKey f p.1, p.2)),
      p.1.isSym = true := by
    intro p hp
    obtain ⟨q, hq, hq2⟩ := List.mem_map.mp (mem_of_mem_dedupFold hp)
    rw [← hq2]
    show (stepDKey f q.1).isSym = true
    rw [stepDKey_isSym]
    exact hall q hq
  have hstepne : dedupFold (d.entries.map fun p => (stepDKey f p.1, p.2)) ≠ [] := by
    apply dedupFold_ne_nil
    intro h2
    exact hne (List.map_eq_nil_iff.mp h2)
  unfold SymbolDictionary.step_dict_keys
  rw [if_pos hsy]
  exact init_ok_of_sym _ σ hstepne hallstep

/-- Characterization of `_step_dict_keys` on a non-empty duplicate-free
string-mode dictionary: promote, step (deduplicating through the fresh
Python dict), demote (deduplicating again), back in string mode. -/
theorem step_dict_keys_str_ok {V : Type} (c : SymCodec)
    (f : TASymbol → TASymbol) (σ : Store) (d : SymbolDictionary V)
    (hsy : d.is_sympy = false) (hall : ∀ p ∈ d.entries, p.1.isSym = false)
    (hnd : (keysOf d.entries).Nodup) (hne : d.entries ≠ []) :
    ∃ σ5 r,
      SymbolDictionary.step_dict_keys c f σ d
        = .ok (σ5,
            ⟨dedupFold (((dedupFold ((d.entries.map fun p =>
                  (promoteKey c (σ.tabs d.ref) p.1, p.2)).map fun p =>
                  (stepDKey f p.1, p.2))).map fun p => (demoteKey c p.1, p.2))),
              false, r⟩) := by
  have hts := to_sympy_ok c σ d.copy hall hne hnd
  have hstepne : dedupFold ((d.entries.map fun p =>
      (promoteKey c (σ.tabs d.ref) p.1, p.2)).map fun p =>
      (stepDKey f p.1, p.2)) ≠ [] := by
    apply dedupFold_ne_nil
    intro h2
    rcases List.map_eq_nil_iff.mp h2 with h3
    exact hne (List.map_eq_nil_iff.mp h3)
  have hallstep : ∀ p ∈ dedupFold ((d.entries.map fun p =>
      (promoteKey c (σ.tabs d.ref) p.1, p.2)).map fun p =>
      (stepDKey f p.1, p.2)), p.1.isSym = true := by
    intro p hp
    obtain ⟨q, hq, hq2⟩ := List.mem_map.mp (mem_of_mem_dedupFold hp)
    obtain ⟨q0, _, hq0⟩ := List.mem_map.mp hq
    rw [← hq2]
    show (stepDKey f q.1).isSym = true
    rw [stepDKey_isSym, ← hq0]
    exact promoteKey_isSym c _ q0.1
  unfold SymbolDictionary.step_dict_keys
  rw [if_neg (by rw [hsy]; exact Bool.false_ne_true)]
  have hin : SymbolDictionary.to_sympy_inplace c σ d.copy
      = .ok (((σ.alloc (saveAssumTable (keysOf (d.entries.map
            (fun p => (promoteKey c (σ.tabs d.ref) p.1, p.2)))) [])).1).set d.ref
            (dictUpdate [] (((σ.alloc (saveAssumTable (keysOf (d.entries.map
              (fun p => (promoteKey c (σ.tabs d.ref) p.1, p.2)))) [])).1).tabs
              σ.next)),
          ⟨d.entries.map (fun p => (promoteKey c (σ.tabs d.ref) p.1, p.2)),
            true, d.ref⟩) := by
    unfold SymbolDictionary.to_sympy_inplace
    rw [hts, except_bind_ok]
    rfl
  rw [hin, except_bind_ok]
  simp only []
  rw [init_ok_of_sym _ _ hstepne hallstep, except_bind_ok]
  simp only []
  unfold SymbolDictionary.to_string_inplace
  rw [to_string_ok_general, except_bind_ok]
  exact ⟨_, _, rfl⟩

theorem mem_keysOf {K V : Type} {l : List (K × V)} {a : K} :
    a ∈ keysOf l ↔ ∃ p ∈ l, p.1 = a := by
  simp [keysOf]

theorem keysOf_map {K V : Type} (g : K → K) (l : List (K × V)) :
    keysOf (l.map fun p => (g p.1, p.2)) = (keysOf l).map g := by
  simp [keysOf, List.map_map]

theorem nodup_keysOf_map {K V : Type} (g : K → K) (l : List (K × V))
    (hg : ∀ a ∈ keysOf l, ∀ b ∈ keysOf l, g a = g b → a = b)
    (hnd : (keysOf l).Nodup) :
    (keysOf (l.map fun p => (g p.1, p.2))).Nodup := by
  rw [keysOf_map]
  exact List.Nodup.map_on hg hnd

theorem keysOf_all_str {V : Type} {l : List (DKey × V)}
    (hall : ∀ p ∈ l, p.1.isSym = false) {a : DKey} (ha : a ∈ keysOf l) :
    ∃ s, a = DKey.str s := by
  obtain ⟨p, hp, hpa⟩ := mem_keysOf.mp ha
  exact eq_str_of_isSym_false (hpa ▸ hall p hp)

theorem map_fixed {A : Type} (g : A → A) (l : List A) :
    (∀ p ∈ l, g p = p) → l.map g = l := by
  induction l with
  | nil => exact fun _ => rfl
  | cons hd tl ih =>
      intro h
      rw [List.map_cons, h hd (List.mem_cons_self hd tl),
        ih fun p hp => h p (List.mem_cons_of_mem hd hp)]

theorem stepDKey_backward_forward (k : DKey) :
    stepDKey TASymbol.step_forward (stepDKey TASymbol.step_backward k) = k := by
  cases k with
  | str s => rfl
  | sym k2 =>
      show DKey.sym (stepSymKey TASymbol.step_forward
        (stepSymKey TASymbol.step_backward k2)) = DKey.sym k2
      rw [stepSymKey_backward_forward]

theorem stepDKey_ss_idem (k : DKey) :
    stepDKey TASymbol.to_ss (stepDKey TASymbol.to_ss k)
      = stepDKey TASymbol.to_ss k := by
  cases k with
  | str s => rfl
  | sym k2 =>
      show DKey.sym (stepSymKey TASymbol.to_ss (stepSymKey TASymbol.to_ss k2))
        = DKey.sym (stepSymKey TASymbol.to_ss k2)
      rw [stepSymKey_ss_idem]

/-- Full collapse of the string-mode `_step_dict_keys` pipeline when the
promote-step-demote composite is injective on the dictionary's keys: both
fresh-dict deduplications are then trivial and the result is the
entry-wise image of the original entries. -/
theorem step_dict_keys_str_map {V : Type} (c : SymCodec)
    (f : TASymbol → TASymbol) (σ : Store) (d : SymbolDictionary V)
    (hsy : d.is_sympy = false) (hall : ∀ p ∈ d.entries, p.1.isSym = false)
    (hnd : (keysOf d.entries).Nodup) (hne : d.entries ≠ [])
    (hinj : ∀ sa, DKey.str sa ∈ keysOf d.entries →
      ∀ sb, DKey.str sb ∈ keysOf d.entries →
      c.toStr (stepSymKey f (c.toSym sa (σ.tabs d.ref)))
        = c.toStr (stepSymKey f (c.toSym sb (σ.tabs d.ref))) → sa = sb) :
    ∃ σ5 r,
      SymbolDictionary.step_dict_keys c f σ d
        = .ok (σ5,
            ⟨d.entries.map fun p =>
              (demoteKey c (stepDKey f (promoteKey c (σ.tabs d.ref) p.1)), p.2),
              false, r⟩) := by
  have hnd1 : (keysOf ((d.entries.map fun p =>
      (promoteKey c (σ.tabs d.ref) p.1, p.2)).map
        fun p => (stepDKey f p.1, p.2))).Nodup := by
    rw [keysOf_map, keysOf_map, List.map_map]
    refine List.Nodup.map_on ?_ hnd
    intro a ha b hb hab
    obtain ⟨s1, rfl⟩ := keysOf_all_str hall ha
    obtain ⟨s2, rfl⟩ := keysOf_all_str hall hb
    have h3 : stepSymKey f (c.toSym s1 (σ.tabs d.ref))
        = stepSymKey f (c.toSym s2 (σ.tabs d.ref)) := by
      simpa [Function.comp, promoteKey, stepDKey] using hab
    have h4 := congrArg c.toStr h3
    rw [hinj s1 ha s2 hb h4]
  have hded1 : dedupFold ((d.entries.map fun p =>
      (promoteKey c (σ.tabs d.ref) p.1, p.2)).map
        fun p => (stepDKey f p.1, p.2))
      = (d.entries.map fun p => (promoteKey c (σ.tabs d.ref) p.1, p.2)).map
        fun p => (stepDKey f p.1, p.2) :=
    dedupFold_eq_of_nodup _ hnd1
  have hnd2 : (keysOf (d.entries.map fun p =>
      (demoteKey c (stepDKey f (promoteKey c (σ.tabs d.ref) p.1)),
        p.2))).Nodup := by
    refine nodup_keysOf_map
      (fun k => demoteKey c (stepDKey f (promoteKey c (σ.tabs d.ref) k)))
      d.entries ?_ hnd
    intro a ha b hb hab
    obtain ⟨s1, rfl⟩ := keysOf_all_str hall ha
    obtain ⟨s2, rfl⟩ := keysOf_all_str hall hb
    have h3 : c.toStr (stepSymKey f (c.toSym s1 (σ.tabs d.ref)))
        = c.toStr (stepSymKey f (c.toSym s2 (σ.tabs d.ref))) := by
      simpa [promoteKey, stepDKey, demoteKey] using hab
    rw [hinj s1 ha s2 hb h3]
  have hmaps : ((d.entries.map fun p =>
      (promoteKey c (σ.tabs d.ref) p.1, p.2)).map
        fun p => (stepDKey f p.1, p.2)).map
        (fun p => (demoteKey c p.1, p.2))
      = d.entries.map fun p =>
        (demoteKey c (stepDKey f (promoteKey c (σ.tabs d.ref) p.1)), p.2) := by
    rw [List.map_map, List.map_map]
    rfl
  have hded2 : dedupFold (((d.entries.map fun p =>
      (promoteKey c (σ.tabs d.ref) p.1, p.2)).map
        fun p => (stepDKey f p.1, p.2)).map
        fun p => (demoteKey c p.1, p.2))
      = d.entries.map fun p =>
        (demoteKey c (stepDKey f (promoteKey c (σ.tabs d.ref) p.1)), p.2) := by
    rw [hmaps]
    exact dedupFold_eq_of_nodup _ hnd2
  obtain ⟨σ5, r, h⟩ := step_dict_keys_str_ok c f σ d hsy hall hnd hne
  refine ⟨σ5, r, ?_⟩
  rw [h, hded1, hded2]

/-- Backward-then-forward stepping of a well-formed sympy-mode dictionary
restores its entries. -/
theorem step_roundtrip_sym {V : Type} (c : SymCodec) (σ : Store)
    (d : SymbolDictionary V) (hsy : d.is_sympy = true)
    (hall : ∀ p ∈ d.entries, p.1.isSym = true)
    (hnd : (keysOf d.entries).Nodup) (hne : d.entries ≠ []) :
    ∃ σ1 d1 σ2 d2,
      SymbolDictionary.step_backward c σ d = .ok (σ1, d1) ∧
      SymbolDictionary.step_forward c σ1 d1 = .ok (σ2, d2) ∧
      d1.is_sympy = true ∧ d2.entries = d.entries ∧ d2.is_sympy = true := by
  have hnd1 : (keysOf (d.entries.map fun p =>
      (stepDKey TASymbol.step_backward p.1, p.2))).Nodup := by
    refine nodup_keysOf_map _ _ ?_ hnd
    intro a _ b _ hab
    have h2 := congrArg (stepDKey TASymbol.step_forward) hab
    rwa [stepDKey_backward_forward, stepDKey_backward_forward] at h2
  have hded : dedupFold (d.entries.map fun p =>
      (stepDKey TASymbol.step_backward p.1, p.2))
      = d.entries.map fun p => (stepDKey TASymbol.step_backward p.1, p.2) :=
    dedupFold_eq_of_nodup _ hnd1
  have h1 := step_dict_keys_sym_ok c TASymbol.step_backward σ d hsy hall hne
  rw [hded] at h1
  have hall1 : ∀ p ∈ d.entries.map (fun p =>
      (stepDKey TASymbol.step_backward p.1, p.2)), p.1.isSym = true := by
    intro p hp
    obtain ⟨q, hq, hq2⟩ := List.mem_map.mp hp
    rw [← hq2]
    show (stepDKey TASymbol.step_backward q.1).isSym = true
    rw [stepDKey_isSym]
    exact hall q hq
  have hne1 : d.entries.map (fun p =>
      (stepDKey TASymbol.step_backward p.1, p.2)) ≠ [] := by
    intro h2
    exact hne (List.map_eq_nil_iff.mp h2)
  have h2 : SymbolDictionary.step_dict_keys c TASymbol.step_forward
      ((σ.alloc (saveAssumTable (keysOf (d.entries.map fun p =>
        (stepDKey TASymbol.step_backward p.1, p.2))) [])).1)
      ⟨d.entries.map fun p => (stepDKey TASymbol.step_backward p.1, p.2),
        true, σ.next⟩
      = .ok ((((σ.alloc (saveAssumTable (keysOf (d.entries.map fun p =>
            (stepDKey TASymbol.step_backward p.1, p.2))) [])).1).alloc
            (saveAssumTable (keysOf (dedupFold ((d.entries.map fun p =>
              (stepDKey TASymbol.step_backward p.1, p.2)).map fun p =>
              (stepDKey TASymbol.step_forward p.1, p.2)))) [])).1,
          ⟨dedupFold ((d.entries.map fun p =>
              (stepDKey TASymbol.step_backward p.1, p.2)).map fun p =>
              (stepDKey TASymbol.step_forward p.1, p.2)),
            true,
            ((σ.alloc (saveAssumTable (keysOf (d.entries.map fun p =>
              (stepDKey TASymbol.step_backward p.1, p.2))) [])).1).next⟩) :=
    step_dict_keys_sym_ok c TASymbol.step_forward _ _ rfl hall1 hne1
  have hcomp : (d.entries.map fun p =>
      (stepDKey TASymbol.step_backward p.1, p.2)).map
      (fun p => (stepDKey TASymbol.step_forward p.1, p.2)) = d.entries := by
    rw [List.map_map]
    refine map_fixed _ _ fun p _ => ?_
    show (stepDKey TASymbol.step_forward
      (stepDKey TASymbol.step_backward p.1), p.2) = p
    rw [stepDKey_backward_forward]
  have hded2 : dedupFold ((d.entries.map fun p =>
      (stepDKey TASymbol.step_backward p.1, p.2)).map fun p =>
      (stepDKey TASymbol.step_forward p.1, p.2)) = d.entries := by
    rw [hcomp]
    exact dedupFold_eq_of_nodup _ hnd
  rw [hded2] at h2
  exact ⟨_, _, _, _, h1, h2, rfl, rfl, rfl⟩

/-- Applying the steady-state key transform twice to a well-formed
sympy-mode dictionary gives the same entries as applying it once. -/
theorem to_ss_idem_sym {V : Type} (c : SymCodec) (σ : Store)
    (d : SymbolDictionary V) (hsy : d.is_sympy = true)
    (hall : ∀ p ∈ d.entries, p.1.isSym = true) (hne : d.entries ≠ []) :
    ∃ σ1 d1 σ2 d2,
      SymbolDictionary.to_ss c σ d = .ok (σ1, d1) ∧
      SymbolDictionary.to_ss c σ1 d1 = .ok (σ2, d2) ∧
      d1.is_sympy = true ∧ d2.entries = d1.entries ∧ d2.is_sympy = true := by
  have h1 := step_dict_keys_sym_ok c TASymbol.to_ss σ d hsy hall hne
  have hall1 : ∀ p ∈ dedupFold (d.entries.map fun p =>
      (stepDKey TASymbol.to_ss p.1, p.2)), p.1.isSym = true := by
    intro p hp
    obtain ⟨q, hq, hq2⟩ := List.mem_map.mp (mem_of_mem_dedupFold hp)
    rw [← hq2]
    show (stepDKey TASymbol.to_ss q.1).isSym = true
    rw [stepDKey_isSym]
    exact hall q hq
  have hne1 : dedupFold (d.entries.map fun p =>
      (stepDKey TASymbol.to_ss p.1, p.2)) ≠ [] := by
    apply dedupFold_ne_nil
    intro h2
    exact hne (List.map_eq_nil_iff.mp h2)
  have h2 : SymbolDictionary.step_dict_keys c TASymbol.to_ss
      ((σ.alloc (saveAssumTable (keysOf (dedupFold (d.entries.map fun p =>
        (stepDKey TASymbol.to_ss p.1, p.2)))) [])).1)
      ⟨dedupFold (d.entries.map fun p => (stepDKey TASymbol.to_ss p.1, p.2)),
        true, σ.next⟩
      = .ok ((((σ.alloc (saveAssumTable (keysOf (dedupFold (d.entries.map fun p =>
            (stepDKey TASymbol.to_ss p.1, p.2)))) [])).1).alloc
            (saveAssumTable (keysOf (dedupFold ((dedupFold (d.entries.map fun p =>
              (stepDKey TASymbol.to_ss p.1, p.2))).map fun p =>
              (stepDKey TASymbol.to_ss p.1, p.2)))) [])).1,
          ⟨dedupFold ((dedupFold (d.entries.map fun p =>
              (stepDKey TASymbol.to_ss p.1, p.2))).map fun p =>
              (stepDKey TASymbol.to_ss p.1, p.2)),
            true,
            ((σ.alloc (saveAssumTable (keysOf (dedupFold (d.entries.map fun p =>
              (stepDKey TASymbol.to_ss p.1, p.2)))) [])).1).next⟩) :=
    step_dict_keys_sym_ok c TASymbol.to_ss _ _ rfl hall1 hne1
  have hfix : (dedupFold (d.entries.map fun p =>
      (stepDKey TASymbol.to_ss p.1, p.2))).map
      (fun p => (stepDKey TASymbol.to_ss p.1, p.2))
      = dedupFold (d.entries.map fun p => (stepDKey TASymbol.to_ss p.1, p.2)) := by
    refine map_fixed _ _ fun p hp => ?_
    obtain ⟨q, _, hq2⟩ := List.mem_map.mp (mem_of_mem_dedupFold hp)
    show (stepDKey TASymbol.to_ss p.1, p.2) = p
    have h3 : stepDKey TASymbol.to_ss p.1 = p.1 := by
      rw [← hq2]
      show stepDKey TASymbol.to_ss (stepDKey TASymbol.to_ss q.1)
        = stepDKey TASymbol.to_ss q.1
      exact stepDKey_ss_idem q.1
    rw [h3]
  have hded2 : dedupFold ((dedupFold (d.entries.map fun p =>
      (stepDKey TASymbol.to_ss p.1, p.2))).map fun p =>
      (stepDKey TASymbol.to_ss p.1, p.2))
      = dedupFold (d.entries.map fun p => (stepDKey TASymbol.to_ss p.1, p.2)) := by
    rw [hfix]
    exact dedupFold_eq_of_nodup _ (nodup_keysOf_dedupFold _)
  rw [hded2] at h2
  exact ⟨_, _, _, _, h1, h2, rfl, rfl, rfl⟩

/-- Backward-then-forward stepping of a well-formed string-mode
dictionary restores its entries (through the promote/demote conversions
of the two passes). -/
theorem step_roundtrip_str {V : Type} (c : SymCodec) (σ : Store)
    (d : SymbolDictionary V) (hsy : d.is_sympy = false)
    (hall : ∀ p ∈ d.entries, p.1.isSym = false)
    (hnd : (keysOf d.entries).Nodup) (hne : d.entries ≠ []) :
    ∃ σ1 d1 σ2 d2,
      SymbolDictionary.step_backward c σ d = .ok (σ1, d1) ∧
      SymbolDictionary.step_forward c σ1 d1 = .ok (σ2, d2) ∧
      d1.is_sympy = false ∧ d2.entries = d.entries ∧ d2.is_sympy = false := by
  have hinjb : ∀ sa, DKey.str sa ∈ keysOf d.entries →
      ∀ sb2, DKey.str sb2 ∈ keysOf d.entries →
      c.toStr (stepSymKey TASymbol.step_backward (c.toSym sa (σ.tabs d.ref)))
        = c.toStr (stepSymKey TASymbol.step_backward
          (c.toSym sb2 (σ.tabs d.ref))) → sa = sb2 := by
    intro sa _ sb2 _ hab
    have h2 : c.toSym (c.toStr (stepSymKey TASymbol.step_backward
        (c.toSym sa (σ.tabs d.ref)))) (σ.tabs d.ref)
        = c.toSym (c.toStr (stepSymKey TASymbol.step_backward
        (c.toSym sb2 (σ.tabs d.ref)))) (σ.tabs d.ref) := by rw [hab]
    rw [c.toSym_step, c.toSym_step] at h2
    have h3 := congrArg (stepSymKey TASymbol.step_forward) h2
    rw [stepSymKey_backward_forward, stepSymKey_backward_forward] at h3
    have h4 := congrArg c.toStr h3
    rwa [c.toStr_toSym, c.toStr_toSym] at h4
  obtain ⟨σ1, r1, h1⟩ := step_dict_keys_str_map c TASymbol.step_backward σ d
    hsy hall hnd hne hinjb
  have hall1 : ∀ p ∈ d.entries.map (fun p =>
      (demoteKey c (stepDKey TASymbol.step_backward
        (promoteKey c (σ.tabs d.ref) p.1)), p.2)), p.1.isSym = false := by
    intro p hp
    obtain ⟨q, _, hq2⟩ := List.mem_map.mp hp
    rw [← hq2]
    exact demoteKey_isSym c _
  have hnd1 : (keysOf (d.entries.map fun p =>
      (demoteKey c (stepDKey TASymbol.step_backward
        (promoteKey c (σ.tabs d.ref) p.1)), p.2))).Nodup := by
    refine nodup_keysOf_map
      (fun k => demoteKey c (stepDKey TASymbol.step_backward
        (promoteKey c (σ.tabs d.ref) k)))
      d.entries ?_ hnd
    intro a ha b hb hab
    obtain ⟨s1, rfl⟩ := keysOf_all_str hall ha
    obtain ⟨s2, rfl⟩ := keysOf_all_str hall hb
    have h3 : c.toStr (stepSymKey TASymbol.step_backward
        (c.toSym s1 (σ.tabs d.ref)))
        = c.toStr (stepSymKey TASymbol.step_backward
          (c.toSym s2 (σ.tabs d.ref))) := by
      simpa [promoteKey, stepDKey, demoteKey] using hab
    rw [hinjb s1 ha s2 hb h3]
  have hne1 : d.entries.map (fun p =>
      (demoteKey c (stepDKey TASymbol.step_backward
        (promoteKey c (σ.tabs d.ref) p.1)), p.2)) ≠ [] := by
    intro h2
    exact hne (List.map_eq_nil_iff.mp h2)
  have hinjf : ∀ sa, DKey.str sa ∈ keysOf (d.entries.map fun p =>
      (demoteKey c (stepDKey TASymbol.step_backward
        (promoteKey c (σ.tabs d.ref) p.1)), p.2)) →
      ∀ sb2, DKey.str sb2 ∈ keysOf (d.entries.map fun p =>
        (demoteKey c (stepDKey TASymbol.step_backward
          (promoteKey c (σ.tabs d.ref) p.1)), p.2)) →
      c.toStr (stepSymKey TASymbol.step_forward (c.toSym sa (σ1.tabs r1)))
        = c.toStr (stepSymKey TASymbol.step_forward
          (c.toSym sb2 (σ1.tabs r1))) → sa = sb2 := by
    intro sa hsa sb2 hsb hab
    obtain ⟨pa, hpa, hpa2⟩ := mem_keysOf.mp hsa
    obtain ⟨qa, hqa, hqa2⟩ := List.mem_map.mp hpa
    obtain ⟨s1, hs1⟩ := eq_str_of_isSym_false (hall qa hqa)
    have ha2 : sa = c.toStr (stepSymKey TASymbol.step_backward
        (c.toSym s1 (σ.tabs d.ref))) := by
      have h5 : pa.1 = DKey.str sa := hpa2 ▸ rfl
      rw [← hqa2] at h5
      rw [hs1] at h5
      simp only [promoteKey, stepDKey, demoteKey] at h5
      exact (DKey.str.inj h5).symm
    obtain ⟨pb, hpb, hpb2⟩ := mem_keysOf.mp hsb
    obtain ⟨qb, hqb, hqb2⟩ := List.mem_map.mp hpb
    obtain ⟨s2, hs2⟩ := eq_str_of_isSym_false (hall qb hqb)
    have hb2 : sb2 = c.toStr (stepSymKey TASymbol.step_backward
        (c.toSym s2 (σ.tabs d.ref))) := by
      have h5 : pb.1 = DKey.str sb2 := hpb2 ▸ rfl
      rw [← hqb2] at h5
      rw [hs2] at h5
      simp only [promoteKey, stepDKey, demoteKey] at h5
      exact (DKey.str.inj h5).symm
    rw [ha2, hb2] at hab ⊢
    rw [c.toSym_step, c.toSym_step] at hab
    rw [stepSymKey_backward_forward, stepSymKey_backward_forward] at hab
    rw [c.toStr_toSym, c.toStr_toSym] at hab
    rw [hab]
  obtain ⟨σ2, r2, h2⟩ := step_dict_keys_str_map c TASymbol.step_forward σ1
    ⟨d.entries.map fun p =>
      (demoteKey c (stepDKey TASymbol.step_backward
        (promoteKey c (σ.tabs d.ref) p.1)), p.2), false, r1⟩
    rfl hall1 hnd1 hne1 hinjf
  have h2b : SymbolDictionary.step_dict_keys c TASymbol.step_forward σ1
      ⟨d.entries.map fun p =>
        (demoteKey c (stepDKey TASymbol.step_backward
          (promoteKey c (σ.tabs d.ref) p.1)), p.2), false, r1⟩
      = .ok (σ2,
          ⟨(d.entries.map fun p =>
            (demoteKey c (stepDKey TASymbol.step_backward
              (promoteKey c (σ.tabs d.ref) p.1)), p.2)).map fun p =>
            (demoteKey c (stepDKey TASymbol.step_forward
              (promoteKey c (σ1.tabs r1) p.1)), p.2),
            false, r2⟩) := h2
  have hcomp : (d.entries.map fun p =>
      (demoteKey c (stepDKey TASymbol.step_backward
        (promoteKey c (σ.tabs d.ref) p.1)), p.2)).map
      (fun p => (demoteKey c (stepDKey TASymbol.step_forward
        (promoteKey c (σ1.tabs r1) p.1)), p.2))
      = d.entries := by
    rw [List.map_map]
    refine map_fixed _ _ fun p hp => ?_
    obtain ⟨s, hs⟩ := eq_str_of_isSym_false (hall p hp)
    show (demoteKey c (stepDKey TASymbol.step_forward (promoteKey c (σ1.tabs r1)
      (demoteKey c (stepDKey TASymbol.step_backward
        (promoteKey c (σ.tabs d.ref) p.1))))), p.2) = p
    rw [hs]
    simp only [promoteKey, stepDKey, demoteKey]
    rw [c.toSym_step, stepSymKey_backward_forward, c.toStr_toSym]
    rw [← hs]
  rw [hcomp] at h2b
  exact ⟨_, _, _, _, h1, h2b, rfl, rfl, rfl⟩

/-- Applying the steady-state key transform twice to a well-formed
string-mode dictionary gives the same entries as applying it once: the
keys produced by the first pass are fixed points of the second pass. -/
theorem to_ss_idem_str {V : Type} (c : SymCodec) (σ : Store)
    (d : SymbolDictionary V) (hsy : d.is_sympy = false)
    (hall : ∀ p ∈ d.entries, p.1.isSym = false)
    (hnd : (keysOf d.entries).Nodup) (hne : d.entries ≠ []) :
    ∃ σ1 d1 σ2 d2,
      SymbolDictionary.to_ss c σ d = .ok (σ1, d1) ∧
      SymbolDictionary.to_ss c σ1 d1 = .ok (σ2, d2) ∧
      d1.is_sympy = false ∧ d2.entries = d1.entries ∧ d2.is_sympy = false := by
  obtain ⟨σ1, r1, h1⟩ := step_dict_keys_str_ok c TASymbol.to_ss σ d hsy hall hnd hne
  have hall1 : ∀ p ∈ dedupFold (((dedupFold ((d.entries.map fun p =>
      (promoteKey c (σ.tabs d.ref) p.1, p.2)).map fun p =>
      (stepDKey TASymbol.to_ss p.1, p.2))).map fun p =>
      (demoteKey c p.1, p.2))), p.1.isSym = false := by
    intro p hp
    obtain ⟨q, _, hq2⟩ := List.mem_map.mp (mem_of_mem_dedupFold hp)
    rw [← hq2]
    exact demoteKey_isSym c _
  have hnd1 : (keysOf (dedupFold (((dedupFold ((d.entries.map fun p =>
      (promoteKey c (σ.tabs d.ref) p.1, p.2)).map fun p =>
      (stepDKey TASymbol.to_ss p.1, p.2))).map fun p =>
      (demoteKey c p.1, p.2))))).Nodup := nodup_keysOf_dedupFold _
  have hne1 : (dedupFold (((dedupFold ((d.entries.map fun p =>
      (promoteKey c (σ.tabs d.ref) p.1, p.2)).map fun p =>
      (stepDKey TASymbol.to_ss p.1, p.2))).map fun p =>
      (demoteKey c p.1, p.2)))) ≠ [] := by
    apply dedupFold_ne_nil
    intro h2
    rcases List.map_eq_nil_iff.mp h2 with h3
    have h4 := dedupFold_ne_nil (l := (d.entries.map fun p =>
      (promoteKey c (σ.tabs d.ref) p.1, p.2)).map fun p =>
      (stepDKey TASymbol.to_ss p.1, p.2)) ?_ h3
    · exact h4
    · intro h5
      rcases List.map_eq_nil_iff.mp h5 with h6
      exact hne (List.map_eq_nil_iff.mp h6)
  have hshape : ∀ a ∈ keysOf (dedupFold (((dedupFold ((d.entries.map fun p =>
      (promoteKey c (σ.tabs d.ref) p.1, p.2)).map fun p =>
      (stepDKey TASymbol.to_ss p.1, p.2))).map fun p =>
      (demoteKey c p.1, p.2)))), ∃ s0,
      a = DKey.str (c.toStr (stepSymKey TASymbol.to_ss
        (c.toSym s0 (σ.tabs d.ref)))) := by
    intro a ha
    obtain ⟨p, hp, hpa⟩ := mem_keysOf.mp ha
    obtain ⟨q, hq, hq2⟩ := List.mem_map.mp (mem_of_mem_dedupFold hp)
    obtain ⟨q0, hq0, hq02⟩ := List.mem_map.mp (mem_of_mem_dedupFold hq)
    obtain ⟨p0, hp0, hp02⟩ := List.mem_map.mp hq0
    obtain ⟨s0, hs0⟩ := eq_str_of_isSym_false (hall p0 hp0)
    refine ⟨s0, ?_⟩
    have e2 : p.1 = demoteKey c q.1 := by rw [← hq2]
    have e3 : q.1 = stepDKey TASymbol.to_ss q0.1 := by rw [← hq02]
    have e4 : q0.1 = promoteKey c (σ.tabs d.ref) p0.1 := by rw [← hp02]
    rw [← hpa, e2, e3, e4, hs0]
    simp [promoteKey, stepDKey, demoteKey]
  have hfix : ∀ s0, c.toStr (stepSymKey TASymbol.to_ss (c.toSym
      (c.toStr (stepSymKey TASymbol.to_ss (c.toSym s0 (σ.tabs d.ref))))
      (σ1.tabs r1)))
      = c.toStr (stepSymKey TASymbol.to_ss (c.toSym s0 (σ.tabs d.ref))) := by
    intro s0
    rw [c.toSym_step, stepSymKey_ss_idem]
    exact toStr_step_indep c s0 (σ1.tabs r1) (σ.tabs d.ref) TASymbol.to_ss
  have hinj2 : ∀ sa, DKey.str sa ∈ keysOf (dedupFold (((dedupFold ((d.entries.map fun p =>
      (promoteKey c (σ.tabs d.ref) p.1, p.2)).map fun p =>
      (stepDKey TASymbol.to_ss p.1, p.2))).map fun p =>
      (demoteKey c p.1, p.2)))) →
      ∀ sb2, DKey.str sb2 ∈ keysOf (dedupFold (((dedupFold ((d.entries.map fun p =>
      (promoteKey c (σ.tabs d.ref) p.1, p.2)).map fun p =>
      (stepDKey TASymbol.to_ss p.1, p.2))).map fun p =>
      (demoteKey c p.1, p.2)))) →
      c.toStr (stepSymKey TASymbol.to_ss (c.toSym sa (σ1.tabs r1)))
        = c.toStr (stepSymKey TASymbol.to_ss (c.toSym sb2 (σ1.tabs r1))) →
      sa = sb2 := by
    intro sa hsa sb2 hsb hab
    obtain ⟨s0a, ha⟩ := hshape _ hsa
    obtain ⟨s0b, hb⟩ := hshape _ hsb
    have ha2 : sa = c.toStr (stepSymKey TASymbol.to_ss
        (c.toSym s0a (σ.tabs d.ref))) := DKey.str.inj ha
    have hb2 : sb2 = c.toStr (stepSymKey TASymbol.to_ss
        (c.toSym s0b (σ.tabs d.ref))) := DKey.str.inj hb
    rw [ha2, hb2] at hab ⊢
    rw [hfix s0a, hfix s0b] at hab
    exact hab
  obtain ⟨σ2, r2, h2⟩ := step_dict_keys_str_map c TASymbol.to_ss σ1
    ⟨dedupFold (((dedupFold ((d.entries.map fun p =>
      (promoteKey c (σ.tabs d.ref) p.1, p.2)).map fun p =>
      (stepDKey TASymbol.to_ss p.1, p.2))).map fun p =>
      (demoteKey c p.1, p.2))), false, r1⟩ rfl hall1 hnd1 hne1 hinj2
  have h2b : SymbolDictionary.step_dict_keys c TASymbol.to_ss σ1
      ⟨dedupFold (((dedupFold ((d.entries.map fun p =>
      (promoteKey c (σ.tabs d.ref) p.1, p.2)).map fun p =>
      (stepDKey TASymbol.to_ss p.1, p.2))).map fun p =>
      (demoteKey c p.1, p.2))), false, r1⟩
      = .ok (σ2,
          ⟨(dedupFold (((dedupFold ((d.entries.map fun p =>
      (promoteKey c (σ.tabs d.ref) p.1, p.2)).map fun p =>
      (stepDKey TASymbol.to_ss p.1, p.2))).map fun p =>
      (demoteKey c p.1, p.2)))).map fun p =>
            (demoteKey c (stepDKey TASymbol.to_ss
              (promoteKey c (σ1.tabs r1) p.1)), p.2),
            false, r2⟩) := h2
  have hfix2 : (dedupFold (((dedupFold ((d.entries.map fun p =>
      (promoteKey c (σ.tabs d.ref) p.1, p.2)).map fun p =>
      (stepDKey TASymbol.to_ss p.1, p.2))).map fun p =>
      (demoteKey c p.1, p.2)))).map (fun p =>
      (demoteKey c (stepDKey TASymbol.to_ss
        (promoteKey c (σ1.tabs r1) p.1)), p.2))
      = (dedupFold (((dedupFold ((d.entries.map fun p =>
      (promoteKey c (σ.tabs d.ref) p.1, p.2)).map fun p =>
      (stepDKey TASymbol.to_ss p.1, p.2))).map fun p =>
      (demoteKey c p.1, p.2)))) := by
    refine map_fixed _ _ fun p hp => ?_
    have hpk : p.1 ∈ keysOf (dedupFold (((dedupFold ((d.entries.map fun p =>
      (promoteKey c (σ.tabs d.ref) p.1, p.2)).map fun p =>
      (stepDKey TASymbol.to_ss p.1, p.2))).map fun p =>
      (demoteKey c p.1, p.2)))) := mem_keysOf.mpr ⟨p, hp, rfl⟩
    obtain ⟨s0, hs0⟩ := hshape _ hpk
    show (demoteKey c (stepDKey TASymbol.to_ss
      (promoteKey c (σ1.tabs r1) p.1)), p.2) = p
    rw [hs0]
    simp only [promoteKey, stepDKey, demoteKey]
    rw [hfix s0]
    rw [← hs0]
  rw [hfix2] at h2b
  exact ⟨_, _, _, _, h1, h2b, rfl, rfl, rfl⟩

/-- Claim C9: for every `TimeAwareSymbol`, `step_forward` undoes
`step_backward` and `to_ss` is idempotent; the lifted bulk operations on
`SymbolDictionary` keys satisfy the same laws (for any key codec obeying
the spec's conversion laws and any well-formed non-empty dictionary):
stepping all keys backward then forward restores the original entries,
applying `to_ss` twice yields the entries of a single application, and
each bulk operation returns a dictionary in the original key mode. -/
theorem timeAwareSymbol_step_roundtrip :
    (∀ x : TASymbol, x.step_backward.step_forward = x)
  ∧ (∀ x : TASymbol, x.to_ss.to_ss = x.to_ss)
  ∧ (∀ (c : SymCodec) (σ : Store) (d : SymbolDictionary ℤ),
      ModeOk d → (keysOf d.entries).Nodup → d.entries ≠ [] →
      ∃ σ1 d1 σ2 d2,
        SymbolDictionary.step_backward c σ d = .ok (σ1, d1) ∧
        SymbolDictionary.step_forward c σ1 d1 = .ok (σ2, d2) ∧
        d1.is_sympy = d.is_sympy ∧ d2.entries = d.entries ∧
        d2.is_sympy = d.is_sympy)
  ∧ (∀ (c : SymCodec) (σ : Store) (d : SymbolDictionary ℤ),
      ModeOk d → (keysOf d.entries).Nodup → d.entries ≠ [] →
      ∃ σ1 d1 σ2 d2,
        SymbolDictionary.to_ss c σ d = .ok (σ1, d1) ∧
        SymbolDictionary.to_ss c σ1 d1 = .ok (σ2, d2) ∧
        d1.is_sympy = d.is_sympy ∧ d2.entries = d1.entries ∧
        d2.is_sympy = d.is_sympy) := by
  refine ⟨ta_step_backward_forward, ta_to_ss_idem, ?_, ?_⟩
  · intro c σ d hmode hnd hne
    cases hsy : d.is_sympy with
    | false =>
        obtain ⟨σ1, d1, σ2, d2, h1, h2, hm1, he, hm2⟩ :=
          step_roundtrip_str c σ d hsy
            (fun p hp => by rw [hmode p hp, hsy]) hnd hne
        exact ⟨σ1, d1, σ2, d2, h1, h2, by rw [hm1], he, by rw [hm2]⟩
    | true =>
        obtain ⟨σ1, d1, σ2, d2, h1, h2, hm1, he, hm2⟩ :=
          step_roundtrip_sym c σ d hsy
            (fun p hp => by rw [hmode p hp, hsy]) hnd hne
        exact ⟨σ1, d1, σ2, d2, h1, h2, by rw [hm1], he, by rw [hm2]⟩
  · intro c σ d hmode hnd hne
    cases hsy : d.is_sympy with
    | false =>
        obtain ⟨σ1, d1, σ2, d2, h1, h2, hm1, he, hm2⟩ :=
          to_ss_idem_str c σ d hsy
            (fun p hp => by rw [hmode p hp, hsy]) hnd hne
        exact ⟨σ1, d1, σ2, d2, h1, h2, by rw [hm1], he, by rw [hm2]⟩
    | true =>
        obtain ⟨σ1, d1, σ2, d2, h1, h2, hm1, he, hm2⟩ :=
          to_ss_idem_sym c σ d hsy
            (fun p hp => by rw [hmode p hp, hsy]) hne
        exact ⟨σ1, d1, σ2, d2, h1, h2, by rw [hm1], he, by rw [hm2]⟩

theorem parseParams_ne_parsing (pieces : List (List Char))
    (acc : List (List Char × List Char)) :
    parseParams pieces acc ≠ .error .distributionParsing := by
  induction pieces generalizing acc with
  | nil =>
      intro h
      simp [parseParams] at h
  | cons hd tl ih =>
      intro h
      simp only [parseParams] at h
      split at h
      · split at h
        · simp at h
        · exact ih _ h
      · simp at h

/-- Claim C5 counterexample: `N(mean == 0, sd = 1)` — the extra-equals
input of `test_catch_distribution_typos` — contains a malformed `==` yet
is rejected with InvalidDistributionException (as the test asserts), not
DistributionParsingError. -/
theorem distribution_double_eq_counterexample : ¬ DistributionClaimC5 := by
  intro h
  have h2 := h ("N(mean == 0, sd = 1)".toList) (by decide)
  have h3 : preprocess_distribution_string ("N(mean == 0, sd = 1)".toList)
      = .error .invalidDistribution := by rfl
  rw [h3] at h2
  injection h2 with h4
  cases h4

/-- Claim C5, amended: the validator classifies parenthesis defects,
malformed `==` equalities and missing comma separators as
InvalidDistributionException, duplicate parameter names as
RepeatedParameterException, and never raises DistributionParsingError
(which belongs to the statement-level `~`/`=` check of `preprocess_gcn`);
well-formed declarations parse. -/
theorem distribution_taxonomy_amended :
    (∀ d : List Char,
      preprocess_distribution_string d ≠ .error .distributionParsing)
  ∧ preprocess_distribution_string ("N(mean == 0, sd = 1)".toList)
      = .error .invalidDistribution
  ∧ preprocess_distribution_string ("N((mean = 0, sd = 1)".toList)
      = .error .invalidDistribution
  ∧ preprocess_distribution_string ("N(mean = 0, sd = 1))".toList)
      = .error .invalidDistribution
  ∧ preprocess_distribution_string ("N(mean = 0 sd = 1)".toList)
      = .error .invalidDistribution
  ∧ preprocess_distribution_string ("N(mean = 0, mean = 1)".toList)
      = .error .repeatedParameter
  ∧ preprocess_distribution_string ("norm(mu = 0, sd = 1)".toList)
      = .ok ("norm".toList,
          [("mu".toList, "0".toList), ("sd".toList, "1".toList)]) := by
  refine ⟨?_, by rfl, by rfl, by rfl, by rfl, by rfl, by rfl⟩
  intro d
  unfold preprocess_distribution_string
  split
  · intro h
    cases hp : parseParams (splitOnChar ','
        ((splitAtChar ')' (splitAtChar '(' d).2).1)) [] with
    | error e =>
        rw [hp, except_bind_error] at h
        injection h with h4
        rw [h4] at hp
        exact parseParams_ne_parsing _ _ hp
    | ok ps =>
        rw [hp, except_bind_ok] at h
        simp at h
  · intro h
    injection h with h4
    cases h4

end GEconpy

